import Mathlib

/-!
# recursive_copy.c: a shallow embedding

The program walks `/etc`, and for every regular file whose content holds the
literal `password` it recreates the directory chain below `/tmp` and copies the
file there, extent by extent when the file is sparse.

Conventions of the embedding.

* A C string is the list of its bytes before the terminating NUL; reading at or
  past the end of the list yields NUL (`cstr`).
* A pointer into a byte buffer is the function from offsets to bytes (`Ptr`).
* `int` is 32 bits wide: a conversion to `int` and a subtraction of two `int`s
  are reduced into `[-2^31, 2^31)` (`toInt32`). An `int` counter that is
  incremented at `INT_MAX` and then used as an offset ends the run in `fault`.
* The operating system is a parameter: a record `Sys σ` of system calls over an
  arbitrary world `σ`. `errno` belongs to the world.
* A function holding a loop or a recursion takes a fuel argument; `timeout` is
  the outcome of a run that the fuel cut short, `fault` the outcome of an access
  outside a buffer.
* `error_msg`, `fprintf`, `malloc` and `free` only write diagnostics or manage
  heap memory; they are left out.
-/

namespace RecursiveCopy

/-! ## Bytes, strings, machine integers -/

/-- The terminating byte of a C string. -/
def NUL : Char := Char.ofNat 0

/-- A pointer to bytes: the byte found at each offset from the pointer. -/
abbrev Ptr := Nat → Char

/-- The memory seen through a pointer to a C string. -/
def cstr (l : List Char) : Ptr := fun i => l.getD i NUL

/-- Pointer arithmetic `p + k`. -/
def Ptr.add (p : Ptr) (k : Nat) : Ptr := fun i => p (k + i)

/-- The length of a C string, `strlen`. -/
def strlen (s : List Char) : Nat := s.length

/-- Reduction of an integer into the range of a 32-bit `int`. -/
def toInt32 (x : Int) : Int := (x + 2147483648) % 4294967296 - 2147483648

/-- The outcome of running a function of the program. -/
inductive Outcome (α : Type) where
  /-- The call returned. -/
  | ret (a : α)
  /-- Undefined behaviour: an access outside a buffer (a write past the end of
  a fixed-size array, a read before the start of a mapping). -/
  | fault
  /-- The fuel ran out while a loop or a recursion was still running. -/
  | timeout
  deriving DecidableEq

/-- The return value of a run, when it returned. -/
def Outcome.code {σ : Type} : Outcome (Int × σ) → Option Int
  | .ret a => some a.1
  | _ => none

/-- The world a run left behind, when it returned. -/
def Outcome.world {σ : Type} : Outcome (Int × σ) → Option σ
  | .ret a => some a.2
  | _ => none

/-- Sequencing: the rest of the run, when the first part returned. -/
def Outcome.bind {α β : Type} (x : Outcome α) (f : α → Outcome β) : Outcome β :=
  match x with
  | .ret a => f a
  | .fault => .fault
  | .timeout => .timeout

/-- The largest `int`. -/
def INT_MAX : Int := 2147483647

/-- Libc `strncmp`: compares at most `n` bytes and stops after a NUL. -/
def strncmp (a b : Ptr) : Nat → Int
  | 0 => 0
  | n + 1 =>
    if a 0 ≠ b 0 then ((a 0).toNat : Int) - ((b 0).toNat : Int)
    else if a 0 = NUL then 0
    else strncmp (a.add 1) (b.add 1) n

/-- The `for` loop of `strnstr` (lines 30-34): the `int` counter `i` runs
while `i <= bound`. When `i` is `INT_MAX` the increment `++i` overflows: the
counter wraps to `-2^31`, which is still `<= bound`, and the next `strncmp`
reads 2 GiB before the buffer, so the run ends in `fault`. -/
def strnstr_loop (str : Ptr) (pattern : List Char) (len : Nat) (bound : Int) :
    Nat → Nat → Outcome (Option Nat)
  | 0, _ => .timeout
  | fuel + 1, i =>
    if (i : Int) ≤ bound then
      if strncmp (str.add i) (cstr pattern) len = 0 then .ret (some i)
      else if (i : Int) = INT_MAX then .fault
      else strnstr_loop str pattern len bound fuel (i + 1)
    else .ret none

/-- Source `strnstr` (lines 27-37). The result is the offset of the returned
pointer from `str`, `none` for `NULL`. The loop bound is
`(int)n - (int)len`, computed in `int`; the fuel covers every value `i` takes
from `0` to that bound and the test that ends the loop. -/
def strnstr (str : Ptr) (n : Nat) (pattern : List Char) : Outcome (Option Nat) :=
  let len := strlen pattern
  let bound := toInt32 (toInt32 n - toInt32 len)
  strnstr_loop str pattern len bound ((bound + 1).toNat + 1) 0

/-- The pattern occurs in the buffer at offset `i`. -/
def OccursAt (str : Ptr) (pattern : List Char) (i : Nat) : Prop :=
  ∀ k, k < pattern.length → str (i + k) = pattern.getD k NUL

/-- The marker searched for by `file_op` (line 258). -/
def password : List Char := "password".toList

/-- A buffer of 4 GiB that starts with the marker and is zero elsewhere. -/
def bigBuffer : Ptr := cstr password

/-- A buffer of zero bytes. -/
def zeroBuffer : Ptr := cstr []

/-! ## Outcomes and the operating system -/

/-- The fields of `struct stat` the program reads. -/
structure Stat where
  st_mode : Nat
  st_uid : Nat
  st_gid : Nat
  st_size : Int
  st_blksize : Int
  st_blocks : Int
  st_atime : Int
  st_mtime : Int
  deriving DecidableEq

/-- The system calls of the program over a world `σ`. A call that returns a
pointer returns `none` for `NULL` or `MAP_FAILED`; a directory stream and a
mapping are named by a number. `errno` is read from and written to the world;
`indeterminate` is the value found in an automatic variable that was never
assigned. `load` and `store` read and write the bytes behind a mapping. -/
structure Sys (σ : Type) where
  errno : σ → Nat
  set_errno : Nat → σ → σ
  indeterminate : σ → Int
  opendir : List Char → σ → Option Nat × σ
  readdir : Nat → σ → Option (List Char) × σ
  closedir : Nat → σ → σ
  stat : List Char → σ → Option Stat × σ
  open_ : List Char → Nat → Nat → σ → Int × σ
  close : Int → σ → σ
  mmap : Int → Nat → Nat → Int → σ → Option Nat × σ
  munmap : Nat → Int → σ → σ
  load : Nat → σ → Ptr
  store : Nat → Ptr → σ → σ
  mkdir : List Char → Nat → σ → Int × σ
  chmod : List Char → Nat → σ → Int × σ
  chown : List Char → Nat → Nat → σ → Int × σ
  utime : List Char → Int → Int → σ → Int × σ
  ftruncate : Int → Int → σ → Int × σ
  posix_fadvise : Int → Int → Int → Nat → σ → Int × σ
  lseek : Int → Int → Nat → σ → Int × σ

/-! Constants of the Linux headers. -/

def PATH_MAX : Nat := 4096
def EEXIST : Nat := 17
def ENXIO : Nat := 6
def O_RDONLY : Nat := 0
def O_RDWR : Nat := 2
def O_CREAT : Nat := 0o100
def O_TRUNC : Nat := 0o1000
def PROT_READ : Nat := 1
def PROT_WRITE : Nat := 2
def MAP_SHARED : Nat := 1
def POSIX_FADV_DONTNEED : Nat := 4
def SEEK_SET : Nat := 0
def SEEK_DATA : Nat := 3
def SEEK_HOLE : Nat := 4
def S_IFMT : Nat := 0o170000
def S_IFDIR : Nat := 0o040000
def S_IFREG : Nat := 0o100000

/-- Source lines 18-23. -/
def S_IALLUGO : Nat := 0o7777

def S_ISDIR (m : Nat) : Bool := m &&& S_IFMT == S_IFDIR
def S_ISREG (m : Nat) : Bool := m &&& S_IFMT == S_IFREG

/-- Conversion of a signed 64-bit value to `size_t`. -/
def to_size_t (x : Int) : Nat := (x % 18446744073709551616).toNat

/-! ## Paths -/

/-- Source `append_path` (lines 101-111). -/
def append_path (dir name : List Char) : List Char :=
  let n := strlen dir
  let m := strlen name
  dir.take n ++ '/' :: name.take m

/-- The literal `"/tmp"` of lines 147, 152, 259 and 260. -/
def tmp : List Char := "/tmp".toList

/-- The value of `sizeof("/tmp")`. -/
def sizeof_tmp : Nat := strlen tmp + 1

/-- The path of a directory entry, line 225 of `file_op`. -/
def entry_path (dir name : List Char) : List Char := append_path dir name

/-- The destination of a source path, lines 259 and 260 of `file_op`:
`append_path("/tmp", path + 1)`. -/
def dest_of (path : List Char) : List Char := append_path tmp (path.drop 1)

/-- The source directory of a destination directory, line 152 of
`file_op_mkdir_cb`: the string at `dir + sizeof("/tmp") - 1`. -/
def src_of (dir : List Char) : List Char := dir.drop (sizeof_tmp - 1)

/-- The string `hay` starts with the string `needle`. -/
def starts_with : List Char → List Char → Bool
  | _, [] => true
  | [], _ :: _ => false
  | h :: hs, n :: ns => h == n && starts_with hs ns

/-- Libc `strstr`: the offset of the first occurrence of `needle` in `hay`,
`none` for `NULL`. -/
def strstr : List Char → List Char → Option Nat
  | [], needle => if starts_with [] needle then some 0 else none
  | c :: cs, needle =>
    if starts_with (c :: cs) needle then some 0
    else (strstr cs needle).map (· + 1)

/-! ## mkdir_p -/

/-- The type `mkdir_cb` (line 25), over a world. -/
abbrev mkdir_cb (σ : Type) := List Char → σ → Outcome (Int × σ)

/-- The `while` loop of `mkdir_p` and the code after it (lines 76-98). `p` is
the offset of the pointer `p` in `path`; `dir` is the string held by the
buffer `dir`, whose end is where `j` points. -/
def mkdir_p_loop {σ : Type} (sys : Sys σ) (path : List Char) (mode : Nat)
    (cb : Option (mkdir_cb σ)) (is_abs : Nat) :
    Nat → Nat → List Char → σ → Outcome (Int × σ)
  | 0, _, _, _ => .timeout
  | fuel + 1, p, dir, s =>
    match strstr (path.drop (p + is_abs)) "/".toList with
    | some k =>
      let q := p + is_abs + k
      let n := q - p
      if PATH_MAX < dir.length + n + 1 then .fault
      else
        let dir := dir ++ (path.drop p).take n
        let r := sys.mkdir dir mode s
        if r.1 ≠ 0 ∧ sys.errno r.2 ≠ EEXIST then .ret (-1, r.2)
        else
          match cb with
          | none => mkdir_p_loop sys path mode cb is_abs fuel q dir r.2
          | some f =>
            match f dir r.2 with
            | .ret e =>
              if e.1 ≠ 0 then .ret (-1, e.2)
              else mkdir_p_loop sys path mode cb is_abs fuel q dir e.2
            | .fault => .fault
            | .timeout => .timeout
    | none =>
      if cstr path (p + 1) ≠ NUL then
        let r := sys.mkdir path mode s
        if r.1 ≠ 0 ∧ sys.errno r.2 ≠ EEXIST then .ret (-1, r.2)
        else .ret (0, r.2)
      else .ret (0, s)

/-- Source `mkdir_p` (lines 61-99). A null `path` is not representable. -/
def mkdir_p {σ : Type} (sys : Sys σ) (fuel : Nat) (path : List Char) (mode : Nat)
    (cb : Option (mkdir_cb σ)) (s : σ) : Outcome (Int × σ) :=
  if cstr path 0 = NUL then .ret (-1, s)
  else
    let is_abs := if cstr path 0 = '/' then 1 else 0
    mkdir_p_loop sys path mode cb is_abs fuel 0 [] s

/-- Source `file_op_mkdir_cb` (lines 142-178). `strcpy` into
`src_dir[PATH_MAX]` faults when the string and its terminator do not fit. -/
def file_op_mkdir_cb {σ : Type} (sys : Sys σ) (dir : List Char) (s : σ) :
    Outcome (Int × σ) :=
  if strncmp (cstr dir) (cstr tmp) (sizeof_tmp - 1) ≠ 0 then .ret (-1, s)
  else if PATH_MAX < strlen (src_of dir) + 1 then .fault
  else
    let src_dir := src_of dir
    if cstr src_dir 0 = NUL then .ret (0, s)
    else
      match sys.stat src_dir s with
      | (none, s1) => .ret (-1, s1)
      | (some st, s1) =>
        if ¬ S_ISDIR st.st_mode then .ret (0, s1)
        else
          let s2 := (sys.chmod dir (st.st_mode &&& 0o7777) s1).2
          let s3 := (sys.chown dir st.st_uid st.st_gid s2).2
          let r := sys.utime dir st.st_atime st.st_mtime s3
          if r.1 ≠ 0 then .ret (-1, r.2) else .ret (0, r.2)

/-! ## read_dir -/

/-- The type `read_dir_op` (line 113), over a world. The entry `ent` is
represented by its `d_name`, which is also the argument `name`. -/
abbrev read_dir_op (σ : Type) := List Char → List Char → σ → Outcome (Int × σ)

/-- The `while` loop of `read_dir` (lines 127-130). The value of `op` is
cast to `void`. -/
def read_dir_loop {σ : Type} (sys : Sys σ) (op : read_dir_op σ) (path : List Char)
    (dir : Nat) : Nat → σ → Outcome σ
  | 0, _ => .timeout
  | fuel + 1, s =>
    match sys.readdir dir s with
    | (none, s1) => .ret s1
    | (some name, s1) =>
      match op path name s1 with
      | .ret e => read_dir_loop sys op path dir fuel (sys.set_errno 0 e.2)
      | .fault => .fault
      | .timeout => .timeout

/-- Source `read_dir` (lines 115-140). The variable `err` has no initialiser
and is assigned only on the two failure paths. -/
def read_dir {σ : Type} (sys : Sys σ) (op : read_dir_op σ) (fuel : Nat)
    (path : List Char) (s : σ) : Outcome (Int × σ) :=
  match sys.opendir path s with
  | (none, s1) => .ret (-1, s1)
  | (some dir, s1) =>
    match read_dir_loop sys op path dir fuel s1 with
    | .ret s2 =>
      let err := if sys.errno s2 ≠ 0 then -1 else sys.indeterminate s2
      .ret (err, sys.closedir dir s2)
    | .fault => .fault
    | .timeout => .timeout

/-! ## copy_sparse_file -/

/-- The call `memcpy(dest + off, src + off, len)`. -/
def memcpy (dest src : Ptr) (off len : Nat) : Ptr :=
  fun i => if off ≤ i ∧ i < off + len then src i else dest i

/-- The `while` loop of `copy_sparse_file` and the code after it
(lines 190-211). -/
def copy_sparse_loop {σ : Type} (sys : Sys σ) (src : Ptr) (size : Nat) (src_fd : Int) :
    Nat → Int → Ptr → σ → Outcome (Int × Ptr × σ)
  | 0, _, _, _ => .timeout
  | fuel + 1, data_start, dest, s =>
    let d := sys.lseek src_fd data_start SEEK_DATA s
    if 0 ≤ d.1 then
      let h := sys.lseek src_fd d.1 SEEK_HOLE d.2
      if h.1 < 0 then
        if sys.errno h.2 = ENXIO then .ret (-1, dest, h.2)
        else
          copy_sparse_loop sys src size src_fd fuel size
            (memcpy dest src d.1.toNat (to_size_t (size - d.1))) h.2
      else
        copy_sparse_loop sys src size src_fd fuel h.1
          (memcpy dest src d.1.toNat (to_size_t (h.1 - d.1))) h.2
    else if sys.errno d.2 ≠ ENXIO then .ret (-1, dest, d.2)
    else .ret (0, dest, d.2)

/-- Source `copy_sparse_file` (lines 180-212); `filename` only appears in
diagnostics. The result holds the bytes of the destination view. -/
def copy_sparse_file {σ : Type} (sys : Sys σ) (fuel : Nat) (dest src : Ptr)
    (size : Nat) (src_fd : Int) (s : σ) : Outcome (Int × Ptr × σ) :=
  let r := sys.lseek src_fd 0 SEEK_SET s
  if r.1 < 0 then .ret (-1, dest, r.2)
  else copy_sparse_loop sys src size src_fd fuel 0 dest (sys.set_errno 0 r.2)

/-! ## file_op -/

/-- Label `out2` of `file_op`. -/
def out2 {σ : Type} (sys : Sys σ) (fd : Int) (err : Int) (s : σ) : Outcome (Int × σ) :=
  .ret (err, sys.close fd s)

/-- The code from the end of the `if` block of `file_op` on: `munmap(map)`,
then label `out2`. Label `out3` only frees memory before it. -/
def out3 {σ : Type} (sys : Sys σ) (map : Nat) (st : Stat) (fd : Int) (err : Int) (s : σ) :
    Outcome (Int × σ) :=
  out2 sys fd err (sys.munmap map st.st_size s)

/-- Label `out4` of `file_op`: the destination is closed and its times are
set, whatever `err` is. -/
def out4 {σ : Type} (sys : Sys σ) (map : Nat) (st : Stat) (fd : Int) (dest_fd : Int)
    (dest_path : List Char) (err : Int) (s : σ) : Outcome (Int × σ) :=
  let s1 := sys.close dest_fd s
  let s2 := (sys.utime dest_path st.st_atime st.st_mtime s1).2
  out3 sys map st fd err s2

/-- Label `out5` of `file_op`. -/
def out5 {σ : Type} (sys : Sys σ) (map : Nat) (st : Stat) (fd : Int) (dest_fd : Int)
    (dest_path : List Char) (dest_map : Nat) (err : Int) (s : σ) : Outcome (Int × σ) :=
  out4 sys map st fd dest_fd dest_path err (sys.munmap dest_map st.st_size s)

/-- Lines 259-292 of `file_op`: the copy of a file that holds the marker. -/
def copy_matching {σ : Type} (sys : Sys σ) (fuel : Nat) (dir path : List Char)
    (st : Stat) (fd : Int) (map : Nat) (s : σ) : Outcome (Int × σ) :=
  let dest_path := dest_of path
  let dest_dir := dest_of dir
  match mkdir_p sys fuel dest_dir 0o644 (some (file_op_mkdir_cb sys)) s with
  | .fault => .fault
  | .timeout => .timeout
  | .ret m =>
    if m.1 ≠ 0 then out3 sys map st fd m.1 m.2
    else
      let o := sys.open_ dest_path (O_RDWR ||| O_CREAT ||| O_TRUNC)
        (st.st_mode &&& S_IALLUGO) m.2
      if o.1 < 0 then out3 sys map st fd (-1) o.2
      else
        let t := sys.ftruncate o.1 st.st_size o.2
        if t.1 ≠ 0 then out4 sys map st fd o.1 dest_path (-1) t.2
        else
          let a := sys.posix_fadvise o.1 0 st.st_size POSIX_FADV_DONTNEED t.2
          match sys.mmap st.st_size (PROT_READ ||| PROT_WRITE) MAP_SHARED o.1 a.2 with
          | (none, s1) => out4 sys map st fd o.1 dest_path (-1) s1
          | (some dest_map, s1) =>
            if st.st_blocks * st.st_blksize < st.st_size then
              match copy_sparse_file sys fuel (sys.load dest_map s1) (sys.load map s1)
                  (to_size_t st.st_size) fd s1 with
              | .fault => .fault
              | .timeout => .timeout
              | .ret c =>
                out5 sys map st fd o.1 dest_path dest_map c.1
                  (sys.store dest_map c.2.1 c.2.2)
            else
              out5 sys map st fd o.1 dest_path dest_map 0
                (sys.store dest_map
                  (memcpy (sys.load dest_map s1) (sys.load map s1) 0 (to_size_t st.st_size))
                  s1)

/-- Source `file_op` (lines 214-316). A call spends one unit of fuel and hands
the rest to the loops and to the recursion through `read_dir`. -/
def file_op {σ : Type} (sys : Sys σ) : Nat → read_dir_op σ
  | 0, _, _, _ => .timeout
  | fuel + 1, dir, name, s =>
    if name = ".".toList ∨ name = "..".toList then .ret (0, s)
    else
      let path := entry_path dir name
      match sys.stat path s with
      | (none, s1) => .ret (-1, s1)
      | (some st, s1) =>
        if S_ISDIR st.st_mode then read_dir sys (file_op sys fuel) fuel path s1
        else if ¬ S_ISREG st.st_mode then .ret (0, s1)
        else
          let o := sys.open_ path O_RDONLY 0 s1
          if o.1 < 0 then .ret (-1, o.2)
          else if st.st_size ≤ 0 then out2 sys o.1 0 o.2
          else
            match sys.mmap st.st_size PROT_READ MAP_SHARED o.1 o.2 with
            | (none, s2) => out2 sys o.1 (-1) s2
            | (some map, s2) =>
              (strnstr (sys.load map s2) (to_size_t st.st_size) password).bind fun found =>
                if found.isSome then copy_matching sys fuel dir path st o.1 map s2
                else out3 sys map st o.1 0 s2

/-- The walk started by `main` (line 320). -/
def walk {σ : Type} (sys : Sys σ) (fuel : Nat) (root : List Char) (s : σ) :
    Outcome (Int × σ) :=
  read_dir sys (file_op sys fuel) fuel root s

/-- Source `main` (lines 318-321). -/
def main {σ : Type} (sys : Sys σ) (fuel : Nat) (s : σ) : Outcome (Int × σ) :=
  walk sys fuel "/etc".toList s

/-! ## Extents of a sparse file -/

/-- An extent holds stored data or is a hole. -/
inductive Kind where
  | Data
  | Hole
  deriving DecidableEq

/-- The half-open byte range `[start, stop)` of a file and its kind. -/
structure Extent where
  start : Nat
  stop : Nat
  kind : Kind
  deriving DecidableEq

/-- The extents, read from offset `a` on, are contiguous, do not overlap, come
in increasing order, and end at `size`. -/
def Covers : Nat → List Extent → Nat → Prop
  | a, [], size => a = size
  | a, e :: es, size => e.start = a ∧ e.start ≤ e.stop ∧ Covers e.stop es size

/-- The kind of the extent that holds offset `i`. -/
def kindAt (es : List Extent) (i : Nat) : Option Kind :=
  (es.find? (fun e => decide (e.start ≤ i ∧ i < e.stop))).map (·.kind)

/-- Offset `i` lies in a data extent. -/
def isData (es : List Extent) (i : Nat) : Bool := kindAt es i == some Kind.Data

/-- The least offset among `off, off + 1, ..., off + count - 1` that
satisfies `p`. -/
def first_from (p : Nat → Bool) : Nat → Nat → Option Nat
  | 0, _ => none
  | count + 1, off => if p off then some off else first_from p count (off + 1)

/-- What `lseek(fd, off, SEEK_DATA)` finds in a file of `size` bytes laid out
as `es`: the least offset at or after `off` that holds data; `none` when there
is none before the end of the file (the call fails with `ENXIO`). -/
def seek_data (es : List Extent) (size off : Nat) : Option Nat :=
  first_from (isData es) (size - off) off

/-- What `lseek(fd, off, SEEK_HOLE)` finds: the least offset at or after
`off` that lies in a hole, the end of the file counting as one; `none` when
`off` is at or past the end of the file (the call fails with `ENXIO`). -/
def seek_hole (es : List Extent) (size off : Nat) : Option Nat :=
  if size ≤ off then none
  else some ((first_from (fun i => !isData es i) (size - off) off).getD size)

/-- The calls `lseek` on descriptor `fd` answer as the extent list `es` of a
file of `size` bytes prescribes, in every world. -/
structure ExtentOracle {σ : Type} (sys : Sys σ) (fd : Int) (es : List Extent)
    (size : Nat) : Prop where
  seek_set : ∀ s, 0 ≤ (sys.lseek fd 0 SEEK_SET s).1
  data_some : ∀ s (off d : Nat), seek_data es size off = some d →
    (sys.lseek fd off SEEK_DATA s).1 = d
  data_none : ∀ s (off : Nat), seek_data es size off = none →
    (sys.lseek fd off SEEK_DATA s).1 < 0 ∧
      sys.errno (sys.lseek fd off SEEK_DATA s).2 = ENXIO
  hole_some : ∀ s (off h : Nat), seek_hole es size off = some h →
    (sys.lseek fd off SEEK_HOLE s).1 = h

/-! ## The chain of directories, as the specification words it -/

/-- The absolute path `/c1/c2/.../ck` of the components `c1, ..., ck`. -/
def abs_path : List (List Char) → List Char
  | [] => []
  | c :: cs => '/' :: c ++ abs_path cs

/-- The chain `/c1`, `/c1/c2`, ..., `/c1/.../ck`. -/
def chain (cs : List (List Char)) : List (List Char) :=
  (List.range cs.length).map (fun i => abs_path (cs.take (i + 1)))

/-- The directory replicator of the specification over a chain of
directories: each one is created in turn, a failure other than "already
exists" is fatal; the callback runs on each directory but the last, right
after the directory was ensured, and a failure of the callback aborts the
chain. -/
def ensure_directory_chain {σ : Type} (sys : Sys σ) (mode : Nat) (cb : mkdir_cb σ) :
    List (List Char) → σ → Outcome (Int × σ)
  | [], s => .ret (0, s)
  | [leaf], s =>
    let r := sys.mkdir leaf mode s
    if r.1 ≠ 0 ∧ sys.errno r.2 ≠ EEXIST then .ret (-1, r.2) else .ret (0, r.2)
  | d :: rest, s =>
    let r := sys.mkdir d mode s
    if r.1 ≠ 0 ∧ sys.errno r.2 ≠ EEXIST then .ret (-1, r.2)
    else
      match cb d r.2 with
      | .ret e =>
        if e.1 ≠ 0 then .ret (-1, e.2) else ensure_directory_chain sys mode cb rest e.2
      | .fault => .fault
      | .timeout => .timeout

/-! ## A small file system to run the program on -/

/-- A call that changes the file system, as recorded by the test world. -/
inductive Call where
  | mkdir (path : List Char) (mode : Nat)
  | chmod (path : List Char) (mode : Nat)
  | chown (path : List Char) (uid gid : Nat)
  | utime (path : List Char) (atime mtime : Int) (result : Int)
  | creat (path : List Char) (flags mode : Nat)
  | ftruncate (path : List Char) (len : Int)
  | store (path : List Char) (bytes : List Char)
  deriving DecidableEq

/-- A file of the test world. -/
structure Node where
  path : List Char
  st : Stat
  names : List (List Char)
  bytes : List Char
  extents : List Extent
  deriving DecidableEq

/-- The fixed part of the test world: the tree of nodes, the paths on which
`utime`, `mkdir` and `open` fail, and the value found in unassigned
variables. -/
structure Config where
  nodes : List Node
  utime_fails : List (List Char)
  mkdir_fails : List (List Char)
  open_fails : List (List Char)
  garbage : Int
  deriving DecidableEq

/-- The test world: the streams, descriptors and mappings opened so far, the
files created so far, and the record of the calls that change the file
system. -/
structure World where
  errno : Nat
  streams : List (List (List Char))
  fds : List (List Char)
  maps : List (List Char)
  made : List (List Char × List Char)
  calls : List Call
  deriving DecidableEq

/-- The node at a path. -/
def Config.node (cfg : Config) (path : List Char) : Option Node :=
  cfg.nodes.find? (fun n => n.path == path)

/-- The path behind a descriptor; descriptors start at 3. -/
def World.fd_path (w : World) (fd : Int) : List Char :=
  w.fds.getD (fd - 3).toNat []

/-- The bytes of the file at a path: a created file first, then a node. -/
def World.bytes (cfg : Config) (w : World) (path : List Char) : List Char :=
  match w.made.find? (fun m => m.1 == path) with
  | some m => m.2
  | none => ((cfg.node path).map (·.bytes)).getD []

/-- Replaces the bytes of a created file. -/
def World.put (w : World) (path : List Char) (bytes : List Char) : World :=
  { w with made := (path, bytes) :: w.made.filter (fun m => m.1 != path) }

/-- Adds a call to the record. -/
def World.log (w : World) (c : Call) : World := { w with calls := w.calls ++ [c] }

/-- The system calls of the test world. -/
def tsys (cfg : Config) : Sys World where
  errno := fun w => w.errno
  set_errno := fun e w => { w with errno := e }
  indeterminate := fun _ => cfg.garbage
  opendir := fun path w =>
    match cfg.node path with
    | some n =>
      if S_ISDIR n.st.st_mode then
        (some w.streams.length, { w with streams := w.streams ++ [n.names] })
      else (none, { w with errno := 20 })
    | none => (none, { w with errno := 2 })
  readdir := fun h w =>
    match w.streams.getD h [] with
    | [] => (none, w)
    | name :: rest => (some name, { w with streams := w.streams.set h rest })
  closedir := fun _ w => w
  stat := fun path w =>
    match cfg.node path with
    | some n => (some n.st, w)
    | none => (none, { w with errno := 2 })
  open_ := fun path flags mode w =>
    if flags &&& O_CREAT ≠ 0 then
      ((w.fds.length : Int) + 3,
        ({ w with fds := w.fds ++ [path] }.put path []).log (Call.creat path flags mode))
    else if path ∈ cfg.open_fails then (-1, { w with errno := 13 })
    else
      match cfg.node path with
      | some _ => ((w.fds.length : Int) + 3, { w with fds := w.fds ++ [path] })
      | none => (-1, { w with errno := 2 })
  close := fun _ w => w
  mmap := fun _ _ _ fd w =>
    (some w.maps.length, { w with maps := w.maps ++ [w.fd_path fd] })
  munmap := fun _ _ w => w
  load := fun m w => cstr (w.bytes cfg (w.maps.getD m []))
  store := fun m p w =>
    let path := w.maps.getD m []
    let bytes := (List.range (w.bytes cfg path).length).map p
    (w.put path bytes).log (Call.store path bytes)
  mkdir := fun path mode w =>
    if path ∈ cfg.mkdir_fails then (-1, { w with errno := 13 })
    else (0, w.log (Call.mkdir path mode))
  chmod := fun path mode w => (0, w.log (Call.chmod path mode))
  chown := fun path uid gid w => (0, w.log (Call.chown path uid gid))
  utime := fun path a m w =>
    if path ∈ cfg.utime_fails then
      (-1, { w with errno := 1 }.log (Call.utime path a m (-1)))
    else (0, w.log (Call.utime path a m 0))
  ftruncate := fun fd len w =>
    let path := w.fd_path fd
    (0, (w.put path (List.replicate len.toNat NUL)).log (Call.ftruncate path len))
  posix_fadvise := fun _ _ _ _ w => (0, w)
  lseek := fun fd off whence w =>
    match cfg.node (w.fd_path fd) with
    | none => (-1, { w with errno := 9 })
    | some n =>
      if whence = SEEK_DATA then
        match seek_data n.extents n.st.st_size.toNat off.toNat with
        | some d => (d, w)
        | none => (-1, { w with errno := ENXIO })
      else if whence = SEEK_HOLE then
        match seek_hole n.extents n.st.st_size.toNat off.toNat with
        | some h => (h, w)
        | none => (-1, { w with errno := ENXIO })
      else (off, w)

/-- The `struct stat` of a directory of the test world. -/
def dir_stat : Stat :=
  { st_mode := 0o040755, st_uid := 0, st_gid := 0, st_size := 4096,
    st_blksize := 4096, st_blocks := 8, st_atime := 100, st_mtime := 200 }

/-- The `struct stat` of a regular file of the test world. -/
def file_stat (size blocks : Int) : Stat :=
  { st_mode := 0o100600, st_uid := 0, st_gid := 0, st_size := size,
    st_blksize := 512, st_blocks := blocks, st_atime := 300, st_mtime := 400 }

/-- A directory node. -/
def dir_node (path : String) (names : List String) : Node :=
  { path := path.toList, st := dir_stat, names := names.map String.toList,
    bytes := [], extents := [] }

/-- A regular file stored in full. -/
def file_node (path : String) (bytes : String) : Node :=
  { path := path.toList, st := file_stat bytes.length 8, names := [],
    bytes := bytes.toList,
    extents := [{ start := 0, stop := bytes.length, kind := Kind.Data }] }

/-- The tree `/etc`, `/etc/app`, `/etc/app/secret.conf`, `/etc/app/readme.txt`
and `/etc/empty`; no call fails. -/
def cfg0 : Config :=
  { nodes := [dir_node "/etc" [".", "..", "app", "empty"],
      dir_node "/etc/app" [".", "..", "secret.conf", "readme.txt"],
      file_node "/etc/app/secret.conf" "password=abc",
      file_node "/etc/app/readme.txt" "hello, world",
      file_node "/etc/empty" ""],
    utime_fails := [], mkdir_fails := [], open_fails := [], garbage := 0 }

/-- The tree of `cfg0`, where `utime` fails on `/tmp/etc`. -/
def cfg1 : Config := { cfg0 with utime_fails := ["/tmp/etc".toList] }

/-- The tree of `cfg0`, where `open` fails on `/etc/empty`. -/
def cfg2 : Config := { cfg0 with open_fails := ["/etc/empty".toList] }

/-- The world in which nothing was opened or created yet. -/
def world0 : World :=
  { errno := 0, streams := [], fds := [], maps := [], made := [], calls := [] }

/-- The test system whose `lseek` answers from the extent list `es` of a file
of `size` bytes, whatever the descriptor and the world. -/
def sparse_sys (es : List Extent) (size : Nat) : Sys World :=
  { tsys cfg0 with
    lseek := fun _ off whence w =>
      if whence = SEEK_DATA then
        match seek_data es size off.toNat with
        | some d => (d, w)
        | none => (-1, { w with errno := ENXIO })
      else if whence = SEEK_HOLE then
        match seek_hole es size off.toNat with
        | some h => (h, w)
        | none => (-1, { w with errno := ENXIO })
      else (off, w) }

/-- A file of 8 bytes: data in `[0, 2)`, a hole in `[2, 5)`, data in `[5, 8)`. -/
def extents8 : List Extent :=
  [{ start := 0, stop := 2, kind := Kind.Data }, { start := 2, stop := 5, kind := Kind.Hole },
   { start := 5, stop := 8, kind := Kind.Data }]

/-- The visitor `op` with the value it returns replaced by `g` and the
`errno` it leaves replaced by `h`. -/
def perturb {σ : Type} (sys : Sys σ) (g : Int × σ → Int) (h : Int × σ → Nat)
    (op : read_dir_op σ) : read_dir_op σ :=
  fun p n t =>
    match op p n t with
    | .ret e => .ret (g e, sys.set_errno (h e) e.2)
    | .fault => .fault
    | .timeout => .timeout

/-- The run with its return value replaced by 0. -/
def Outcome.discard {σ : Type} : Outcome (Int × σ) → Outcome (Int × σ)
  | .ret a => .ret (0, a.2)
  | .fault => .fault
  | .timeout => .timeout

/-! ## Facts about `strncmp` and `strnstr` -/

theorem strncmp_eq_zero_iff (pattern : List Char) (hnul : NUL ∉ pattern) (a : Ptr) :
    strncmp a (cstr pattern) pattern.length = 0 ↔ OccursAt a pattern 0 := by
  induction pattern generalizing a with
  | nil => simp [strncmp, OccursAt]
  | cons c cs ih =>
    have hc : c ≠ NUL := fun h => hnul (by simp [h])
    have hcs : NUL ∉ cs := fun h => hnul (by simp [h])
    have hadd : (cstr (c :: cs)).add 1 = cstr cs := by
      funext i
      simp [Ptr.add, cstr, Nat.add_comm 1 i]
    have h0 : cstr (c :: cs) 0 = c := by simp [cstr]
    simp only [List.length_cons, strncmp, h0, hadd]
    by_cases hac : a 0 = c
    · have hne : ¬ a 0 = NUL := by rw [hac]; exact hc
      simp only [hac, ne_eq, not_true_eq_false, if_false, hc]
      rw [ih hcs]
      constructor
      · intro h k hk
        cases k with
        | zero => simpa [cstr] using hac
        | succ k =>
          have := h k (by simpa using hk)
          simpa [Ptr.add, cstr, Nat.add_comm 1 k] using this
      · intro h k hk
        have := h (k + 1) (by simpa using hk)
        simpa [Ptr.add, cstr, Nat.add_comm 1 k] using this
    · simp only [ne_eq, hac, not_false_eq_true, if_true]
      constructor
      · intro h
        exfalso
        have h1 : (a 0).toNat = c.toNat := by omega
        exact hac (Char.ext (UInt32.ext (by simpa [Char.toNat] using h1)))
      · intro h
        exact absurd (by simpa [cstr] using h 0 (by simp)) hac

theorem strncmp_head_ne (a b : Ptr) (n : Nat) (h : a 0 ≠ b 0) : strncmp a b (n + 1) ≠ 0 := by
  rw [strncmp, if_pos h]
  intro hz
  apply h
  have h1 : (a 0).toNat = (b 0).toNat := by omega
  exact Char.ext (UInt32.ext (by simpa [Char.toNat] using h1))

theorem strnstr_loop_some (str : Ptr) (pattern : List Char) (len : Nat) (bound : Int)
    (fuel i j : Nat) (h : strnstr_loop str pattern len bound fuel i = Outcome.ret (some j)) :
    i ≤ j ∧ (j : Int) ≤ bound ∧ strncmp (str.add j) (cstr pattern) len = 0 ∧
      ∀ k, i ≤ k → k < j → strncmp (str.add k) (cstr pattern) len ≠ 0 := by
  induction fuel generalizing i with
  | zero => simp [strnstr_loop] at h
  | succ fuel ih =>
    simp only [strnstr_loop] at h
    split at h
    · rename_i hb
      split at h
      · rename_i hz
        cases h
        exact ⟨le_refl _, hb, hz, fun k h1 h2 => absurd h2 (by omega)⟩
      · rename_i hz
        split at h
        · cases h
        · obtain ⟨h1, h2, h3, h4⟩ := ih (i + 1) h
          refine ⟨by omega, h2, h3, fun k hk1 hk2 => ?_⟩
          by_cases hki : k = i
          · subst hki; exact hz
          · exact h4 k (by omega) hk2
    · cases h

theorem strnstr_loop_none (str : Ptr) (pattern : List Char) (len : Nat) (bound : Int)
    (fuel i : Nat) (h : strnstr_loop str pattern len bound fuel i = Outcome.ret none) :
    ∀ k, i ≤ k → (k : Int) ≤ bound → strncmp (str.add k) (cstr pattern) len ≠ 0 := by
  induction fuel generalizing i with
  | zero => simp [strnstr_loop] at h
  | succ fuel ih =>
    simp only [strnstr_loop] at h
    intro k h1 h3
    split at h
    · split at h
      · cases h
      · rename_i hz
        split at h
        · cases h
        · by_cases hki : k = i
          · subst hki; exact hz
          · exact ih (i + 1) h k (by omega) h3
    · omega

/-- The loop returns when its bound is below `INT_MAX` and the fuel covers the
values left for `i` and the closing test. -/
theorem strnstr_loop_returns (str : Ptr) (pattern : List Char) (len : Nat) (bound : Int)
    (hb : bound < INT_MAX) (fuel : Nat) :
    ∀ i : Nat, (bound + 1 - (i : Int)).toNat < fuel →
      ∃ r, strnstr_loop str pattern len bound fuel i = Outcome.ret r := by
  induction fuel with
  | zero => intro i h; omega
  | succ fuel ih =>
    intro i hf
    simp only [strnstr_loop]
    split
    · rename_i hi
      split
      · exact ⟨_, rfl⟩
      · have hne : ¬ (i : Int) = INT_MAX := by
          simp only [INT_MAX] at hb ⊢
          omega
        rw [if_neg hne]
        exact ih (i + 1) (by push_cast; omega)
    · exact ⟨_, rfl⟩

/-- The loop ends in `fault` when its bound is `INT_MAX` and the pattern is
found nowhere: the counter reaches `INT_MAX` and is incremented. -/
theorem strnstr_loop_overflows (str : Ptr) (pattern : List Char) (len : Nat)
    (hno : ∀ k, strncmp (str.add k) (cstr pattern) len ≠ 0) (fuel : Nat) :
    ∀ i : Nat, (i : Int) ≤ INT_MAX → (INT_MAX - (i : Int)).toNat < fuel →
      strnstr_loop str pattern len INT_MAX fuel i = Outcome.fault := by
  induction fuel with
  | zero => intro i _ h; omega
  | succ fuel ih =>
    intro i hi hf
    simp only [strnstr_loop, hi, hno i, if_true, if_false]
    split
    · rfl
    · rename_i hne
      simp only [INT_MAX] at hi hf hne ⊢
      exact ih (i + 1) (by simp only [INT_MAX]; push_cast; omega)
        (by simp only [INT_MAX]; push_cast; omega)

theorem occursAt_add (str : Ptr) (pattern : List Char) (i : Nat) :
    OccursAt (str.add i) pattern 0 ↔ OccursAt str pattern i := by
  simp [OccursAt, Ptr.add]

/-- Whatever the length `n`, a pointer returned by `strnstr` is the leftmost
occurrence of the pattern and the occurrence lies inside the buffer. -/
theorem strnstr_some_sound (str : Ptr) (n : Nat) (pattern : List Char) (j : Nat)
    (hnul : NUL ∉ pattern) (hpos : 0 < pattern.length)
    (hlen : pattern.length < 2147483648)
    (h : strnstr str n pattern = Outcome.ret (some j)) :
    j + pattern.length ≤ n ∧ OccursAt str pattern j ∧
      ∀ k, k < j → ¬ OccursAt str pattern k := by
  unfold strnstr at h
  obtain ⟨_, h2, h3, h4⟩ := strnstr_loop_some _ _ _ _ _ _ _ h
  simp only [strlen] at h2 h3 h4
  refine ⟨?_, ?_, ?_⟩
  · simp only [toInt32] at h2
    omega
  · rw [← occursAt_add, ← strncmp_eq_zero_iff pattern hnul]
    exact h3
  · intro k hk hocc
    apply h4 k (Nat.zero_le _) hk
    rw [strncmp_eq_zero_iff pattern hnul, occursAt_add]
    exact hocc

/-- When the length fits an `int`, `strnstr` misses no occurrence. -/
theorem strnstr_none_complete (str : Ptr) (n : Nat) (pattern : List Char)
    (hnul : NUL ∉ pattern) (hlen : pattern.length < 2147483648)
    (hn : n < 2147483648)
    (h : strnstr str n pattern = Outcome.ret none) :
    ∀ k, k + pattern.length ≤ n → ¬ OccursAt str pattern k := by
  unfold strnstr at h
  intro k hk hocc
  have := strnstr_loop_none _ _ _ _ _ _ h k (Nat.zero_le _)
  simp only [strlen, toInt32] at this
  apply this (by omega)
  rw [strncmp_eq_zero_iff pattern hnul, occursAt_add]
  exact hocc

/-- The search returns unless its loop bound is `INT_MAX`. -/
theorem strnstr_returns (str : Ptr) (n : Nat) (pattern : List Char)
    (hb : toInt32 (toInt32 n - toInt32 (strlen pattern)) < INT_MAX) :
    ∃ r, strnstr str n pattern = Outcome.ret r := by
  unfold strnstr
  exact strnstr_loop_returns str pattern _ _ hb _ 0 (by
    generalize toInt32 (toInt32 (n : Int) - toInt32 (strlen pattern)) = b
    omega)

/-- Within the range of `int`, `strnstr` is the leftmost-occurrence search over
`str[0..n)`: it returns, it returns offset `j` exactly when `j` is the
leftmost occurrence of the pattern lying inside the buffer, and `NULL` exactly
when there is none. -/
theorem strnstr_in_range (str : Ptr) (n : Nat) (pattern : List Char)
    (hnul : NUL ∉ pattern) (hpos : 0 < pattern.length)
    (hlen : pattern.length < 2147483648) (hn : n < 2147483648) :
    (∃ r, strnstr str n pattern = Outcome.ret r) ∧
    (∀ j, strnstr str n pattern = Outcome.ret (some j) ↔
      (j + pattern.length ≤ n ∧ OccursAt str pattern j ∧
        ∀ k, k < j → ¬ OccursAt str pattern k)) ∧
    (strnstr str n pattern = Outcome.ret none ↔
      ∀ k, k + pattern.length ≤ n → ¬ OccursAt str pattern k) := by
  have hnone := strnstr_none_complete str n pattern hnul hlen hn
  have hsome := fun j => strnstr_some_sound str n pattern j hnul hpos hlen
  have hret : ∃ r, strnstr str n pattern = Outcome.ret r := by
    apply strnstr_returns
    simp only [strlen, toInt32, INT_MAX]
    omega
  obtain ⟨r, hr⟩ := hret
  refine ⟨⟨r, hr⟩, ?_, ?_⟩
  · intro j
    refine ⟨hsome j, fun ⟨h1, h2, h3⟩ => ?_⟩
    cases r with
    | none => exact absurd h2 (hnone hr j h1)
    | some i =>
      obtain ⟨g1, g2, g3⟩ := hsome i hr
      rcases Nat.lt_trichotomy i j with hlt | heq | hgt
      · exact absurd g2 (h3 i hlt)
      · rw [hr, heq]
      · exact absurd h2 (g3 j hgt)
  · refine ⟨hnone, fun h => ?_⟩
    cases r with
    | none => exact hr
    | some i =>
      obtain ⟨g1, g2, _⟩ := hsome i hr
      exact absurd g2 (h i g1)

/-- A search over an empty buffer finds nothing. -/
theorem strnstr_zero (str : Ptr) (pattern : List Char) (hpos : 0 < pattern.length)
    (hlen : pattern.length < 2147483648) : strnstr str 0 pattern = Outcome.ret none := by
  have key : ∀ (bound : Int) (fuel : Nat), bound < 0 →
      strnstr_loop str pattern (strlen pattern) bound (fuel + 1) 0 = Outcome.ret none := by
    intro bound fuel hb
    have : ¬ ((0 : Nat) : Int) ≤ bound := by omega
    simp only [strnstr_loop, this, if_false]
  unfold strnstr
  apply key
  simp only [strlen, toInt32]
  omega

theorem password_wf : NUL ∉ password ∧ 0 < password.length ∧
    password.length < 2147483648 := by
  decide

/-- On a marker-free buffer of `2^31 + 7` bytes the loop bound is `INT_MAX`
and the search ends by overflowing its counter. -/
theorem strnstr_overflows_counter : strnstr zeroBuffer 2147483655 password = Outcome.fault := by
  have hb : toInt32 (toInt32 ((2147483655 : Nat) : Int) - toInt32 (strlen password)) = INT_MAX := by
    decide
  have hno : ∀ k, strncmp (zeroBuffer.add k) (cstr password) (strlen password) ≠ 0 := by
    intro k
    have h0 : zeroBuffer.add k 0 = NUL := by simp [zeroBuffer, Ptr.add, cstr]
    have hp : cstr password 0 = 'p' := by decide
    have hl : strlen password = 7 + 1 := by decide
    rw [hl]
    apply strncmp_head_ne
    rw [h0, hp]
    decide
  unfold strnstr
  simp only [hb]
  exact strnstr_loop_overflows zeroBuffer password _ hno _ 0 (by decide) (by
    simp only [INT_MAX]
    omega)

/-- C1, the defect: on a buffer of 2^32 bytes that starts with `password`,
`(int)n` is 0, the loop bound is `0 - 8`, the loop body never runs and
`strnstr` returns `NULL` although the pattern occurs at offset 0 inside the
buffer. -/
theorem strnstr_misses_in_large_buffer :
    strnstr bigBuffer 4294967296 password = Outcome.ret none ∧
      0 + password.length ≤ 4294967296 ∧ OccursAt bigBuffer password 0 := by
  refine ⟨by decide, by decide, ?_⟩
  intro k hk
  simp [bigBuffer, cstr]

/-! ## Paths: the mapping between source and destination -/

theorem append_path_eq (dir name : List Char) :
    append_path dir name = dir ++ '/' :: name := by
  simp [append_path, strlen]

theorem dest_of_abs (rest : List Char) : dest_of ('/' :: rest) = tmp ++ '/' :: rest := by
  simp [dest_of, append_path_eq]

theorem sizeof_tmp_eq : sizeof_tmp - 1 = tmp.length := by decide

theorem abs_of_head (p : List Char) (h : p.head? = some '/') : ∃ rest, p = '/' :: rest := by
  cases p with
  | nil => simp at h
  | cons c rest =>
    simp only [List.head?_cons, Option.some.injEq] at h
    exact ⟨rest, by rw [h]⟩

/-- C3: for every source path `p` that begins with `/`, the destination
`append_path("/tmp", p + 1)` computed by `file_op` begins with `/tmp`, the
mapping of `file_op_mkdir_cb` (the string at `dir + sizeof("/tmp") - 1`) takes
it back to `p`, and two such paths with the same destination are equal. -/
theorem dest_of_src_of_roundtrip (p : List Char) (hp : p.head? = some '/') :
    tmp <+: dest_of p ∧ src_of (dest_of p) = p ∧
      ∀ q : List Char, q.head? = some '/' → dest_of p = dest_of q → p = q := by
  obtain ⟨rest, rfl⟩ := abs_of_head p hp
  have hsrc : ∀ r : List Char, src_of (dest_of ('/' :: r)) = '/' :: r := by
    intro r
    rw [dest_of_abs, src_of, sizeof_tmp_eq]
    simp
  refine ⟨?_, hsrc rest, ?_⟩
  · rw [dest_of_abs]
    exact List.prefix_append _ _
  · intro q hq heq
    obtain ⟨rest2, rfl⟩ := abs_of_head q hq
    rw [← hsrc rest, heq, hsrc rest2]

theorem dest_of_src_of_roundtrip_witness :
    tmp <+: dest_of "/etc/app".toList ∧ src_of (dest_of "/etc/app".toList) = "/etc/app".toList ∧
      ∀ q : List Char, q.head? = some '/' → dest_of "/etc/app".toList = dest_of q →
        "/etc/app".toList = q :=
  dest_of_src_of_roundtrip "/etc/app".toList (by decide)

/-- C9, as stated, fails: for the file `/etc/app/secret.conf` found in
`/etc/app`, `file_op` does not compute `/tmp/app/secret.conf` and `/tmp/app`. -/
theorem dest_of_keeps_source_root :
    ¬ (dest_of (entry_path "/etc/app".toList "secret.conf".toList) = "/tmp/app/secret.conf".toList ∧
        dest_of "/etc/app".toList = "/tmp/app".toList) := by
  decide

set_option maxRecDepth 100000 in
/-- C9, amended: the destination is the source path with `/tmp` put in front
of it, the source root `/etc` kept. For the file `/etc/app/secret.conf` found
in `/etc/app`, `file_op` computes the file path `/tmp/etc/app/secret.conf` and
the directory `/tmp/etc/app`, and in the test world these are the directory it
makes last and the file it creates. -/
theorem dest_of_example :
    entry_path "/etc/app".toList "secret.conf".toList = "/etc/app/secret.conf".toList ∧
    dest_of (entry_path "/etc/app".toList "secret.conf".toList) =
      "/tmp/etc/app/secret.conf".toList ∧
    dest_of "/etc/app".toList = "/tmp/etc/app".toList ∧
    ((file_op (tsys cfg0) 10 "/etc/app".toList "secret.conf".toList world0).world.map
        (fun w => w.calls.filterMap (fun c =>
          match c with
          | Call.mkdir path _ => some path
          | Call.creat path _ _ => some path
          | _ => none))) =
      some ["/tmp".toList, "/tmp/etc".toList, "/tmp/etc/app".toList,
        "/tmp/etc/app/secret.conf".toList] := by
  decide

/-! ## The metadata hook `file_op_mkdir_cb` -/

theorem occursAt_cstr_zero (pattern l : List Char) (hnul : NUL ∉ pattern) :
    OccursAt (cstr l) pattern 0 ↔ pattern <+: l := by
  induction pattern generalizing l with
  | nil => simp [OccursAt]
  | cons c cs ih =>
    have hc : c ≠ NUL := fun h => hnul (by simp [h])
    have hcs : NUL ∉ cs := fun h => hnul (by simp [h])
    cases l with
    | nil =>
      constructor
      · intro h
        have := h 0 (by simp)
        simp [cstr] at this
        exact absurd this.symm hc
      · intro h
        simp at h
    | cons d ds =>
      rw [List.cons_prefix_cons, ← ih ds hcs]
      constructor
      · intro h
        refine ⟨?_, fun k hk => ?_⟩
        · have := h 0 (by simp)
          simpa [cstr] using this.symm
        · have := h (k + 1) (by simpa using hk)
          simpa [cstr] using this
      · rintro ⟨rfl, h⟩ k hk
        cases k with
        | zero => simp [cstr]
        | succ k =>
          have := h k (by simpa using hk)
          simpa [cstr] using this

theorem strncmp_tmp (dir : List Char) :
    strncmp (cstr dir) (cstr tmp) (sizeof_tmp - 1) = 0 ↔ tmp <+: dir := by
  rw [sizeof_tmp_eq, strncmp_eq_zero_iff tmp (by decide), occursAt_cstr_zero tmp dir (by decide)]

/-- C7: on a directory path that does not begin with `/tmp` the hook returns
-1 and leaves the world as it found it: no `stat`, `chmod`, `chown` or `utime`
was called. -/
theorem file_op_mkdir_cb_rejects {σ : Type} (sys : Sys σ) (dir : List Char) (s : σ)
    (h : ¬ tmp <+: dir) : file_op_mkdir_cb sys dir s = Outcome.ret (-1, s) := by
  have hne : strncmp (cstr dir) (cstr tmp) (sizeof_tmp - 1) ≠ 0 := by
    rw [ne_eq, strncmp_tmp]
    exact h
  simp only [file_op_mkdir_cb, hne, ne_eq, not_false_eq_true, if_true]

theorem file_op_mkdir_cb_rejects_witness :
    file_op_mkdir_cb (tsys cfg0) "/etc/app".toList world0 = Outcome.ret (-1, world0) :=
  file_op_mkdir_cb_rejects (tsys cfg0) "/etc/app".toList world0 (by decide)

/-- C8, as stated, fails: `/tmp/missing` lies under `/tmp`, its source
`/missing` is not empty and does not exist (`stat` fails), and the hook returns
-1, not 0. -/
theorem file_op_mkdir_cb_stat_failure :
    tmp <+: "/tmp/missing".toList ∧ src_of "/tmp/missing".toList = "/missing".toList ∧
      ((tsys cfg0).stat "/missing".toList world0).1 = none ∧
      (file_op_mkdir_cb (tsys cfg0) "/tmp/missing".toList world0).code = some (-1) := by
  decide

/-- C8, amended: for a destination directory under `/tmp` whose source path
is not empty and fits the buffer `src_dir`, the hook changes no mode, owner or
timestamp when the source is not a directory or does not exist: the world it
leaves is the one `stat` left. It returns 0 when the source exists and is not
a directory, and -1 when `stat` fails. -/
theorem file_op_mkdir_cb_no_directory {σ : Type} (sys : Sys σ) (dir : List Char) (s : σ)
    (hstr : NUL ∉ dir) (htmp : tmp <+: dir) (hsrc : src_of dir ≠ [])
    (hfit : (src_of dir).length < PATH_MAX) :
    (∀ st s1, sys.stat (src_of dir) s = (some st, s1) → S_ISDIR st.st_mode = false →
      file_op_mkdir_cb sys dir s = Outcome.ret (0, s1)) ∧
    (∀ s1, sys.stat (src_of dir) s = (none, s1) →
      file_op_mkdir_cb sys dir s = Outcome.ret (-1, s1)) := by
  have h0 : strncmp (cstr dir) (cstr tmp) (sizeof_tmp - 1) = 0 := (strncmp_tmp dir).2 htmp
  have h1 : ¬ PATH_MAX < strlen (src_of dir) + 1 := by
    simp only [strlen]
    omega
  have h2 : ¬ cstr (src_of dir) 0 = NUL := by
    intro h
    cases hd : src_of dir with
    | nil => exact hsrc hd
    | cons c cs =>
      rw [hd] at h
      simp only [cstr, List.getD_cons_zero] at h
      have hmem : c ∈ dir := by
        have : c ∈ src_of dir := by rw [hd]; simp
        exact List.mem_of_mem_drop this
      exact hstr (h ▸ hmem)
  constructor
  · intro st s1 hstat hdir
    simp only [file_op_mkdir_cb, h0, h1, h2, hstat, hdir, ne_eq, not_true_eq_false, if_false,
      Bool.false_eq_true, not_false_eq_true, if_true]
  · intro s1 hstat
    simp only [file_op_mkdir_cb, h0, h1, h2, hstat, ne_eq, not_true_eq_false, if_false]

set_option maxRecDepth 100000 in
theorem file_op_mkdir_cb_no_directory_witness :
    file_op_mkdir_cb (tsys cfg0) "/tmp/etc/empty".toList world0 = Outcome.ret (0, world0) ∧
    file_op_mkdir_cb (tsys cfg0) "/tmp/missing".toList world0 =
      Outcome.ret (-1, { world0 with errno := 2 }) :=
  ⟨(file_op_mkdir_cb_no_directory (tsys cfg0) "/tmp/etc/empty".toList world0 (by decide) (by decide)
      (by decide) (by decide)).1 (file_stat 0 8) world0 (by decide) (by decide),
   (file_op_mkdir_cb_no_directory (tsys cfg0) "/tmp/missing".toList world0 (by decide) (by decide)
      (by decide) (by decide)).2 { world0 with errno := 2 } (by decide)⟩

/-! ## mkdir_p on an absolute path -/

theorem strstr_slash_none (l : List Char) (h : '/' ∉ l) : strstr l "/".toList = none := by
  induction l with
  | nil => rfl
  | cons c cs ih =>
    have hc : c ≠ '/' := fun e => h (by simp [e])
    have hcs : '/' ∉ cs := fun e => h (by simp [e])
    have hsw : starts_with (c :: cs) "/".toList = false := by
      show (c == '/' && starts_with cs []) = false
      simp [hc]
    simp only [strstr, hsw, ih hcs, Bool.false_eq_true, if_false, Option.map_none']

theorem strstr_slash_some (l t : List Char) (h : '/' ∉ l) :
    strstr (l ++ '/' :: t) "/".toList = some l.length := by
  induction l with
  | nil =>
    have hsw : starts_with ('/' :: t) "/".toList = true := by
      show ('/' == '/' && starts_with t []) = true
      cases t <;> simp [starts_with]
    simp only [List.nil_append, strstr, hsw, if_true, List.length_nil]
  | cons c cs ih =>
    have hc : c ≠ '/' := fun e => h (by simp [e])
    have hcs : '/' ∉ cs := fun e => h (by simp [e])
    have hsw : starts_with (c :: (cs ++ '/' :: t)) "/".toList = false := by
      show (c == '/' && starts_with (cs ++ '/' :: t) []) = false
      simp [hc]
    show strstr (c :: (cs ++ '/' :: t)) "/".toList = some (cs.length + 1)
    rw [strstr]
    simp only [hsw, ih hcs, Bool.false_eq_true, if_false, Option.map_some']

theorem cstr_drop (l : List Char) (i : Nat) : cstr l i = cstr (l.drop i) 0 := by
  simp [cstr, List.getD_eq_getElem?_getD, List.getElem?_drop]

theorem abs_path_append (pre cs : List (List Char)) :
    abs_path (pre ++ cs) = abs_path pre ++ abs_path cs := by
  induction pre with
  | nil => rfl
  | cons c pre ih => simp [abs_path, ih]

/-- The chain of the components `cs` placed after the components `pre`. -/
theorem chain_cons_aux (pre : List (List Char)) (c : List Char) (rest : List (List Char)) :
    (List.range (c :: rest).length).map (fun i => abs_path (pre ++ (c :: rest).take (i + 1))) =
      abs_path (pre ++ [c]) ::
        (List.range rest.length).map (fun i => abs_path ((pre ++ [c]) ++ rest.take (i + 1))) := by
  rw [List.length_cons, List.range_succ_eq_map, List.map_cons, List.map_map]
  congr 1
  apply List.map_congr_left
  intro i _
  simp

theorem mkdir_p_loop_chain {σ : Type} (sys : Sys σ) (cb : mkdir_cb σ) (mode : Nat)
    (rest : List (List Char)) :
    ∀ (pre : List (List Char)) (c : List Char) (fuel : Nat) (s : σ),
      (∀ x ∈ c :: rest, x ≠ [] ∧ '/' ∉ x ∧ NUL ∉ x) →
      (abs_path (pre ++ c :: rest)).length < PATH_MAX →
      rest.length + 1 ≤ fuel →
      mkdir_p_loop sys (abs_path (pre ++ c :: rest)) mode (some cb) 1 fuel
          (abs_path pre).length (abs_path pre) s =
        ensure_directory_chain sys mode cb
          ((List.range (c :: rest).length).map
            (fun i => abs_path (pre ++ (c :: rest).take (i + 1)))) s := by
  induction rest with
  | nil =>
    intro pre c fuel s hwf hlen hfuel
    obtain ⟨fuel, rfl⟩ : ∃ f, fuel = f + 1 := ⟨fuel - 1, by simp at hfuel; omega⟩
    obtain ⟨hne, hslash, hnul⟩ := hwf c (by simp)
    have hpath : abs_path (pre ++ [c]) = abs_path pre ++ '/' :: c := by
      simp [abs_path_append, abs_path]
    have hdrop : (abs_path (pre ++ [c])).drop ((abs_path pre).length + 1) = c := by
      rw [hpath, ← List.drop_drop, List.drop_left]
      rfl
    have hhead : cstr (abs_path (pre ++ [c])) ((abs_path pre).length + 1) ≠ NUL := by
      cases c with
      | nil => exact absurd rfl hne
      | cons a as =>
        have : cstr (abs_path (pre ++ [a :: as])) ((abs_path pre).length + 1) = a := by
          rw [cstr_drop, hdrop]
          rfl
        rw [this]
        exact fun e => hnul (by simp [e])
    simp only [mkdir_p_loop, hdrop, strstr_slash_none c hslash, hhead, ne_eq,
      not_false_eq_true, if_true]
    simp [ensure_directory_chain]
  | cons c2 rest ih =>
    intro pre c fuel s hwf hlen hfuel
    obtain ⟨fuel, rfl⟩ : ∃ f, fuel = f + 1 := ⟨fuel - 1, by simp at hfuel; omega⟩
    obtain ⟨hne, hslash, hnul⟩ := hwf c (by simp)
    have hwf2 : ∀ x ∈ c2 :: rest, x ≠ [] ∧ '/' ∉ x ∧ NUL ∉ x :=
      fun x hx => hwf x (List.mem_cons_of_mem _ hx)
    have hpath : abs_path (pre ++ c :: c2 :: rest) =
        abs_path pre ++ '/' :: (c ++ '/' :: (c2 ++ abs_path rest)) := by
      simp [abs_path_append, abs_path]
    have hdrop : (abs_path (pre ++ c :: c2 :: rest)).drop ((abs_path pre).length + 1) =
        c ++ '/' :: (c2 ++ abs_path rest) := by
      rw [hpath, ← List.drop_drop, List.drop_left]
      rfl
    have hq : (abs_path pre).length + 1 + c.length - (abs_path pre).length = c.length + 1 := by
      omega
    have htake : ((abs_path (pre ++ c :: c2 :: rest)).drop (abs_path pre).length).take
        (c.length + 1) = '/' :: c := by
      rw [hpath, List.drop_left]
      simp
    have hdir : abs_path pre ++ '/' :: c = abs_path (pre ++ [c]) := by
      simp [abs_path_append, abs_path]
    have hfit : ¬ PATH_MAX < (abs_path pre).length + (c.length + 1) + 1 := by
      have : (abs_path (pre ++ c :: c2 :: rest)).length =
          (abs_path pre).length + 1 + c.length + 1 + (c2 ++ abs_path rest).length := by
        rw [hpath]
        simp
        omega
      omega
    have hplen : (abs_path pre).length + 1 + c.length = (abs_path (pre ++ [c])).length := by
      rw [← hdir]
      simp
      omega
    have hlist : pre ++ c :: c2 :: rest = (pre ++ [c]) ++ c2 :: rest := by simp
    have hrec := fun fuel s hf => ih (pre ++ [c]) c2 fuel s hwf2 (by rw [← hlist]; exact hlen) hf
    rw [chain_cons_aux]
    have hchain2 : (List.range rest.length.succ).map
          (fun i => abs_path ((pre ++ [c]) ++ (c2 :: rest).take (i + 1))) =
        abs_path ((pre ++ [c]) ++ [c2]) ::
          (List.range rest.length).map
            (fun i => abs_path (((pre ++ [c]) ++ [c2]) ++ rest.take (i + 1))) :=
      chain_cons_aux (pre ++ [c]) c2 rest
    simp only [mkdir_p_loop, hdrop, strstr_slash_some c _ hslash, hq, htake, hfit, if_false,
      hdir]
    simp only [hplen]
    simp only [List.length_cons] at hchain2 ⊢
    rw [hchain2]
    simp only [ensure_directory_chain]
    rw [← hchain2]
    split
    · rfl
    · split
      · rename_i e heq
        split
        · rfl
        · rw [hlist]
          exact hrec fuel e.2 (by simp at hfuel ⊢; omega)
      · rfl
      · rfl

theorem ensure_directory_chain_ok {σ : Type} (sys : Sys σ) (mode : Nat) (cb : mkdir_cb σ)
    (hmk : ∀ p t, (sys.mkdir p mode t).1 = 0 ∨ sys.errno (sys.mkdir p mode t).2 = EEXIST)
    (hcb : ∀ d t, ∃ t', cb d t = Outcome.ret (0, t')) (l : List (List Char)) :
    ∀ s, ∃ s', ensure_directory_chain sys mode cb l s = Outcome.ret (0, s') := by
  have hok : ∀ p t, ¬ ((sys.mkdir p mode t).1 ≠ 0 ∧ sys.errno (sys.mkdir p mode t).2 ≠ EEXIST) := by
    intro p t h
    rcases hmk p t with h1 | h1
    · exact h.1 h1
    · exact h.2 h1
  induction l with
  | nil => exact fun s => ⟨s, rfl⟩
  | cons d rest ih =>
    intro s
    cases rest with
    | nil => exact ⟨(sys.mkdir d mode s).2, by simp only [ensure_directory_chain, hok, if_false]⟩
    | cons d2 rest =>
      obtain ⟨t', ht'⟩ := hcb d (sys.mkdir d mode s).2
      obtain ⟨s', hs'⟩ := ih t'
      refine ⟨s', ?_⟩
      simp only [ensure_directory_chain, hok, if_false, ht', ne_eq, not_true_eq_false]
      exact hs'

/-- C4: on the absolute path `/c1/.../ck` (at least one component, every
component a non-empty string free of `/`, the path shorter than `PATH_MAX`)
`mkdir_p`, given fuel for its `k - 1` loop iterations and the code after the
loop, does what the directory replicator of the specification does on the
chain `/c1`, `/c1/c2`, ..., `/c1/.../ck`: it creates each directory in turn,
runs the callback on each of the first `k - 1` right after the directory was
ensured and never on the full path, returns -1 at the first `mkdir` that fails
with something other than `EEXIST` or the first callback that returns non-zero
and goes no further. When every `mkdir` succeeds or reports `EEXIST` and every
callback returns 0, it returns 0. -/
theorem mkdir_p_absolute {σ : Type} (sys : Sys σ) (cb : mkdir_cb σ) (mode : Nat)
    (cs : List (List Char)) (fuel : Nat) (s : σ)
    (hne : cs ≠ []) (hwf : ∀ c ∈ cs, c ≠ [] ∧ '/' ∉ c ∧ NUL ∉ c)
    (hlen : (abs_path cs).length < PATH_MAX) (hfuel : cs.length ≤ fuel) :
    mkdir_p sys fuel (abs_path cs) mode (some cb) s =
      ensure_directory_chain sys mode cb (chain cs) s ∧
    ((∀ p t, (sys.mkdir p mode t).1 = 0 ∨ sys.errno (sys.mkdir p mode t).2 = EEXIST) →
      (∀ d t, ∃ t', cb d t = Outcome.ret (0, t')) →
      ∃ s', mkdir_p sys fuel (abs_path cs) mode (some cb) s = Outcome.ret (0, s')) := by
  have key : mkdir_p sys fuel (abs_path cs) mode (some cb) s =
      ensure_directory_chain sys mode cb (chain cs) s := by
    cases cs with
    | nil => exact absurd rfl hne
    | cons c rest =>
      have h0 : cstr (abs_path (c :: rest)) 0 = '/' := rfl
      have hloop := mkdir_p_loop_chain sys cb mode rest [] c fuel s hwf hlen
        (by simpa using hfuel)
      simp only [mkdir_p, h0, if_true]
      rw [if_neg (by decide)]
      simpa [chain, abs_path] using hloop
  refine ⟨key, fun hmk hcb => ?_⟩
  rw [key]
  exact ensure_directory_chain_ok sys mode cb hmk hcb _ s

set_option maxRecDepth 100000 in
theorem mkdir_p_absolute_witness :
    mkdir_p (tsys cfg0) 3 (abs_path ["tmp".toList, "etc".toList, "app".toList]) 0o644
        (some (file_op_mkdir_cb (tsys cfg0))) world0 =
      ensure_directory_chain (tsys cfg0) 0o644 (file_op_mkdir_cb (tsys cfg0))
        ["/tmp".toList, "/tmp/etc".toList, "/tmp/etc/app".toList] world0 ∧
    (mkdir_p (tsys cfg0) 3 "/tmp/etc/app".toList 0o644
        (some (file_op_mkdir_cb (tsys cfg0))) world0).code = some 0 ∧
    (mkdir_p (tsys cfg0) 3 "/tmp/etc/app".toList 0o644
        (some (file_op_mkdir_cb (tsys cfg0))) world0).world.map (fun w => w.calls) =
      some [Call.mkdir "/tmp".toList 0o644, Call.mkdir "/tmp/etc".toList 0o644,
        Call.chmod "/tmp/etc".toList 0o755, Call.chown "/tmp/etc".toList 0 0,
        Call.utime "/tmp/etc".toList 100 200 0, Call.mkdir "/tmp/etc/app".toList 0o644] :=
  ⟨(mkdir_p_absolute (tsys cfg0) (file_op_mkdir_cb (tsys cfg0)) 0o644
    ["tmp".toList, "etc".toList, "app".toList] 3 world0 (by decide) (by decide) (by decide)
    (by decide)).1, by decide, by decide⟩

/-! ## mkdir_p terminates on every absolute path -/

theorem starts_with_nil (l : List Char) : starts_with l [] = true := by
  cases l <;> rfl

theorem strstr_slash_split (l : List Char) :
    ∀ k, strstr l "/".toList = some k → ∃ pre post, l = pre ++ '/' :: post ∧ pre.length = k := by
  induction l with
  | nil =>
    intro k h
    have hn : strstr [] "/".toList = none := rfl
    rw [hn] at h
    cases h
  | cons c cs ih =>
    intro k h
    rw [strstr] at h
    by_cases hc : c = '/'
    · have hsw : starts_with (c :: cs) "/".toList = true := by
        show (c == '/' && starts_with cs []) = true
        simp [hc, starts_with_nil]
      rw [if_pos hsw] at h
      cases h
      exact ⟨[], cs, by simp [hc], rfl⟩
    · have hsw : ¬ starts_with (c :: cs) "/".toList = true := by
        show ¬ (c == '/' && starts_with cs []) = true
        simp [hc]
      rw [if_neg hsw] at h
      cases hr : strstr cs "/".toList with
      | none => rw [hr] at h; cases h
      | some k2 =>
        rw [hr] at h
        simp only [Option.map_some', Option.some.injEq] at h
        obtain ⟨pre, post, hl, hlen⟩ := ih k2 hr
        exact ⟨c :: pre, post, by simp [hl], by simp [hlen, ← h]⟩

theorem count_slash_after (l : List Char) (k : Nat) (h : strstr l "/".toList = some k) :
    (l.drop (k + 1)).count '/' < l.count '/' := by
  obtain ⟨pre, post, rfl, rfl⟩ := strstr_slash_split l k h
  have : (pre ++ '/' :: post).drop (pre.length + 1) = post := by
    rw [← List.drop_drop, List.drop_left]
    rfl
  rw [this]
  simp [List.count_append, List.count_cons]
  omega

theorem mkdir_p_loop_absolute_returns {σ : Type} (sys : Sys σ) (cb : Option (mkdir_cb σ))
    (mode : Nat) (path : List Char)
    (hcb : ∀ f, cb = some f → ∀ d t, f d t ≠ Outcome.timeout) (fuel : Nat) :
    ∀ (p : Nat) (dir : List Char) (s : σ), (path.drop (p + 1)).count '/' < fuel →
      mkdir_p_loop sys path mode cb 1 fuel p dir s ≠ Outcome.timeout := by
  induction fuel with
  | zero => intro p dir s h; omega
  | succ fuel ih =>
    intro p dir s hfuel
    rw [mkdir_p_loop]
    cases hq : strstr (path.drop (p + 1)) "/".toList with
    | none =>
      simp only []
      split
      · split <;> exact fun h => by cases h
      · exact fun h => by cases h
    | some k =>
      have hcount := count_slash_after _ k hq
      rw [List.drop_drop] at hcount
      have hnext : (path.drop (p + 1 + k + 1)).count '/' < fuel := by
        have e : p + 1 + (k + 1) = p + 1 + k + 1 := by omega
        rw [e] at hcount
        omega
      simp only []
      split
      · exact fun h => by cases h
      · split
        · exact fun h => by cases h
        · cases cb with
          | none => exact ih _ _ _ hnext
          | some f =>
            simp only []
            split
            · split
              · exact fun h => by cases h
              · exact ih _ _ _ hnext
            · exact fun h => by cases h
            · rename_i heq
              exact absurd heq (hcb f rfl _ _)

/-- On every absolute path `mkdir_p` returns or faults, given a unit of fuel
for each `/` of the path: the component loop runs fewer times than the path
has `/` characters. -/
theorem mkdir_p_absolute_returns {σ : Type} (sys : Sys σ) (cb : Option (mkdir_cb σ))
    (mode : Nat) (path : List Char) (s : σ) (fuel : Nat)
    (habs : cstr path 0 = '/')
    (hcb : ∀ f, cb = some f → ∀ d t, f d t ≠ Outcome.timeout)
    (hfuel : path.count '/' ≤ fuel) :
    mkdir_p sys fuel path mode cb s ≠ Outcome.timeout := by
  have hnul : ¬ cstr path 0 = NUL := by
    rw [habs]
    decide
  simp only [mkdir_p, hnul, habs, if_false, if_true]
  apply mkdir_p_loop_absolute_returns sys cb mode path hcb
  cases path with
  | nil => exact absurd habs (by decide)
  | cons c rest =>
    have hc : c = '/' := habs
    subst hc
    simp [List.count_cons] at hfuel ⊢
    omega

theorem first_from_some (p : Nat → Bool) (count : Nat) :
    ∀ off d, first_from p count off = some d →
      off ≤ d ∧ d < off + count ∧ p d = true ∧ ∀ i, off ≤ i → i < d → p i = false := by
  induction count with
  | zero => intro off d h; simp [first_from] at h
  | succ count ih =>
    intro off d h
    simp only [first_from] at h
    split at h
    · rename_i hp
      cases h
      exact ⟨le_refl _, by omega, hp, fun i h1 h2 => absurd h2 (by omega)⟩
    · rename_i hp
      obtain ⟨h1, h2, h3, h4⟩ := ih (off + 1) d h
      refine ⟨by omega, by omega, h3, fun i hi1 hi2 => ?_⟩
      by_cases hio : i = off
      · subst hio; simpa using hp
      · exact h4 i (by omega) hi2

theorem first_from_none (p : Nat → Bool) (count : Nat) :
    ∀ off, first_from p count off = none → ∀ i, off ≤ i → i < off + count → p i = false := by
  induction count with
  | zero => intro off _ i h1 h2; omega
  | succ count ih =>
    intro off h i h1 h2
    simp only [first_from] at h
    split at h
    · cases h
    · rename_i hp
      by_cases hio : i = off
      · subst hio; simpa using hp
      · exact ih (off + 1) h i (by omega) (by omega)

theorem seek_data_some (es : List Extent) (size off d : Nat) (h : seek_data es size off = some d) :
    off ≤ d ∧ d < size ∧ isData es d = true ∧ ∀ i, off ≤ i → i < d → isData es i = false := by
  obtain ⟨h1, h2, h3, h4⟩ := first_from_some _ _ _ _ h
  exact ⟨h1, by omega, h3, h4⟩

theorem seek_data_none (es : List Extent) (size off : Nat) (h : seek_data es size off = none) :
    ∀ i, off ≤ i → i < size → isData es i = false :=
  fun i h1 h2 => first_from_none _ _ _ h i h1 (by omega)

theorem seek_hole_some (es : List Extent) (size off : Nat) (hoff : off < size) :
    ∃ h, seek_hole es size off = some h ∧ off ≤ h ∧ h ≤ size ∧
      ∀ i, off ≤ i → i < h → isData es i = true := by
  have hns : ¬ size ≤ off := by omega
  cases hf : first_from (fun i => !isData es i) (size - off) off with
  | none =>
    refine ⟨size, by simp [seek_hole, hns, hf], by omega, le_refl _, fun i h1 h2 => ?_⟩
    have := first_from_none _ _ _ hf i h1 (by omega)
    simpa using this
  | some h =>
    obtain ⟨h1, h2, _, h4⟩ := first_from_some _ _ _ _ hf
    refine ⟨h, by simp [seek_hole, hns, hf], h1, by omega, fun i hi1 hi2 => ?_⟩
    have := h4 i hi1 hi2
    simpa using this

theorem covers_kindAt (es : List Extent) :
    ∀ a size, Covers a es size → ∀ i, a ≤ i → i < size → ∃ k, kindAt es i = some k := by
  induction es with
  | nil =>
    intro a size h i h1 h2
    simp only [Covers] at h
    omega
  | cons e es ih =>
    intro a size h i h1 h2
    obtain ⟨hs, hlt, hrest⟩ := h
    by_cases hi : i < e.stop
    · exact ⟨e.kind, by simp [kindAt, List.find?_cons, hs, h1, hi]⟩
    · obtain ⟨k, hk⟩ := ih e.stop size hrest i (by omega) h2
      refine ⟨k, ?_⟩
      have hne : decide (e.start ≤ i ∧ i < e.stop) = false := by simp [hi]
      rw [← hk]
      simp only [kindAt, List.find?_cons, hne]

theorem to_size_t_sub (h d : Nat) (hdh : d ≤ h) (hh : h < 18446744073709551616) :
    to_size_t ((h : Int) - (d : Int)) = h - d := by
  simp only [to_size_t]
  omega

theorem copy_sparse_loop_spec {σ : Type} (sys : Sys σ) (fd : Int) (es : List Extent)
    (size : Nat) (dest src : Ptr) (horacle : ExtentOracle sys fd es size)
    (hsize : size < 18446744073709551616) (fuel : Nat) :
    ∀ (a : Nat) (cur : Ptr) (s : σ), a ≤ size → size - a < fuel →
      (∀ i, cur i = if i < a ∧ isData es i = true then src i else dest i) →
      ∃ dest' s', copy_sparse_loop sys src size fd fuel (a : Int) cur s =
          Outcome.ret (0, dest', s') ∧
        ∀ i, dest' i = if i < size ∧ isData es i = true then src i else dest i := by
  induction fuel with
  | zero => intro a cur s _ h; omega
  | succ fuel ih =>
    intro a cur s ha hfuel hcur
    cases hd : seek_data es size a with
    | none =>
      obtain ⟨hneg, herr⟩ := horacle.data_none s a hd
      have hge : ¬ (0 : Int) ≤ (sys.lseek fd (a : Int) SEEK_DATA s).1 := by omega
      refine ⟨cur, (sys.lseek fd (a : Int) SEEK_DATA s).2, ?_, fun i => ?_⟩
      · simp only [copy_sparse_loop, hge, herr, if_false, ne_eq, not_true_eq_false]
      · rw [hcur i]
        by_cases hdi : isData es i = true
        · by_cases hia : i < a
          · have : i < size := by omega
            simp [hia, hdi, this]
          · have hns : ¬ i < size := by
              intro hlt
              have := seek_data_none es size a hd i (by omega) hlt
              rw [this] at hdi
              exact absurd hdi (by decide)
            simp [hia, hns]
        · simp [hdi]
    | some d =>
      obtain ⟨had, hdsize, hdata, hgap⟩ := seek_data_some es size a d hd
      obtain ⟨h, hh, hdh, hhsize, hrun⟩ := seek_hole_some es size d hdsize
      have hdh' : d < h := by
        rcases Nat.lt_or_ge d h with hlt | hge
        · exact hlt
        · exfalso
          have heq : h = d := by omega
          subst heq
          unfold seek_hole at hh
          rw [if_neg (by omega)] at hh
          cases hf : first_from (fun i => !isData es i) (size - h) h with
          | none =>
            rw [hf] at hh
            simp at hh
            omega
          | some x =>
            rw [hf] at hh
            simp at hh
            subst hh
            obtain ⟨_, _, h3, _⟩ := first_from_some _ _ _ _ hf
            simp [hdata] at h3
      have e1 : (sys.lseek fd (a : Int) SEEK_DATA s).1 = (d : Int) := horacle.data_some s a d hd
      have e2 : (sys.lseek fd (d : Int) SEEK_HOLE (sys.lseek fd (a : Int) SEEK_DATA s).2).1 =
          (h : Int) := horacle.hole_some _ d h hh
      have hnn : (0 : Int) ≤ (d : Int) := by omega
      have hnh : ¬ (h : Int) < 0 := by omega
      have hlen : to_size_t ((h : Int) - (d : Int)) = h - d :=
        to_size_t_sub h d (by omega) (by omega)
      obtain ⟨dest', s', hrun', hres⟩ := ih h
        (memcpy cur src d (h - d))
        (sys.lseek fd (d : Int) SEEK_HOLE (sys.lseek fd (a : Int) SEEK_DATA s).2).2
        hhsize (by omega) (by
          intro i
          simp only [memcpy, hcur i]
          by_cases hr : d ≤ i ∧ i < d + (h - d)
          · have hdi := hrun i hr.1 (by omega)
            have : i < h := by omega
            simp [hr, hdi, this]
          · rw [if_neg hr]
            by_cases hdi : isData es i = true
            · by_cases hia : i < a
              · have : i < h := by omega
                simp [hia, hdi, this]
              · have hid : ¬ i < d := by
                  intro hlt
                  have := hgap i (by omega) hlt
                  rw [this] at hdi
                  exact absurd hdi (by decide)
                have : ¬ i < h := by omega
                simp [hia, this]
            · simp [hdi])
      refine ⟨dest', s', ?_, hres⟩
      simp only [copy_sparse_loop, e1, e2, hnn, hnh, if_true, if_false, Int.toNat_ofNat, hlen]
      exact hrun'

/-- C2: when `lseek` answers as a well-formed extent list covering
`[0, size)` prescribes, `copy_sparse_file`, given fuel for more than `size`
iterations, returns 0; afterwards every offset below `size` that lies in a
data extent holds the source byte, every offset that lies in a hole holds what
the destination held before; and when the destination was zero and the source
reads zero in its holes, the destination equals the source on `[0, size)`. -/
theorem copy_sparse_file_copies_data {σ : Type} (sys : Sys σ) (fd : Int) (es : List Extent)
    (size : Nat) (dest src : Ptr) (s : σ) (fuel : Nat)
    (hwf : Covers 0 es size) (horacle : ExtentOracle sys fd es size)
    (hsize : size < 18446744073709551616) (hfuel : size < fuel) :
    ∃ dest' s', copy_sparse_file sys fuel dest src size fd s = Outcome.ret (0, dest', s') ∧
      (∀ i, i < size → kindAt es i = some Kind.Data → dest' i = src i) ∧
      (∀ i, i < size → kindAt es i = some Kind.Hole → dest' i = dest i) ∧
      ((∀ i, i < size → dest i = NUL) →
        (∀ i, i < size → kindAt es i = some Kind.Hole → src i = NUL) →
        ∀ i, i < size → dest' i = src i) := by
  have hset : ¬ (sys.lseek fd 0 SEEK_SET s).1 < 0 := by
    have := horacle.seek_set s
    omega
  obtain ⟨dest', s', hrun, hres⟩ := copy_sparse_loop_spec sys fd es size dest src horacle hsize
    fuel 0 dest (sys.set_errno 0 (sys.lseek fd 0 SEEK_SET s).2) (Nat.zero_le _) (by omega)
    (fun i => by simp)
  have hdata : ∀ i, i < size → kindAt es i = some Kind.Data → dest' i = src i := by
    intro i hi hk
    rw [hres i]
    simp [isData, hk, hi]
  have hhole : ∀ i, i < size → kindAt es i = some Kind.Hole → dest' i = dest i := by
    intro i hi hk
    rw [hres i]
    simp [isData, hk]
  refine ⟨dest', s', ?_, hdata, hhole, fun hz hsz i hi => ?_⟩
  · simp only [copy_sparse_file, hset, if_false]
    exact hrun
  · obtain ⟨k, hk⟩ := covers_kindAt es 0 size hwf i (Nat.zero_le _) hi
    cases k with
    | Data => exact hdata i hi hk
    | Hole => rw [hhole i hi hk, hz i hi, hsz i hi hk]

theorem sparse_sys_oracle (es : List Extent) (size : Nat) (fd : Int) :
    ExtentOracle (sparse_sys es size) fd es size where
  seek_set := fun s => by simp [sparse_sys, SEEK_SET, SEEK_DATA, SEEK_HOLE]
  data_some := fun s off d h => by simp [sparse_sys, h]
  data_none := fun s off h => by simp [sparse_sys, h, tsys]
  hole_some := fun s off x h => by simp [sparse_sys, h, SEEK_HOLE, SEEK_DATA]

theorem copy_sparse_file_copies_data_witness :
    ∃ dest' s', copy_sparse_file (sparse_sys extents8 8) 9 (cstr []) (cstr "abxyzcde".toList) 8 3
        world0 = Outcome.ret (0, dest', s') ∧
      (∀ i, i < 8 → kindAt extents8 i = some Kind.Data → dest' i = cstr "abxyzcde".toList i) ∧
      (∀ i, i < 8 → kindAt extents8 i = some Kind.Hole → dest' i = cstr [] i) ∧
      ((∀ i, i < 8 → cstr [] i = NUL) →
        (∀ i, i < 8 → kindAt extents8 i = some Kind.Hole → cstr "abxyzcde".toList i = NUL) →
        ∀ i, i < 8 → dest' i = cstr "abxyzcde".toList i) :=
  copy_sparse_file_copies_data (sparse_sys extents8 8) 3 extents8 8 (cstr [])
    (cstr "abxyzcde".toList) world0 9 (by simp [Covers, extents8]) (sparse_sys_oracle _ _ _)
    (by decide) (by decide)

/-! ## file_op on a file without the marker -/

/-- The search of `file_op` returns `NULL` on a buffer without the marker,
unless the length makes the loop bound `INT_MAX`. -/
theorem strnstr_password_none (str : Ptr) (n : Nat)
    (hn : n % 4294967296 ≠ 2147483655)
    (h : ∀ i, i + password.length ≤ n → ¬ OccursAt str password i) :
    strnstr str n password = Outcome.ret none := by
  have hb : toInt32 (toInt32 (n : Int) - toInt32 (strlen password)) < INT_MAX := by
    have hl : strlen password = 8 := by decide
    rw [hl]
    simp only [toInt32, INT_MAX]
    omega
  obtain ⟨r, hr⟩ := strnstr_returns str n password hb
  cases r with
  | none => exact hr
  | some j =>
    obtain ⟨h1, h2, _⟩ := strnstr_some_sound str n password j password_wf.1 password_wf.2.1
      password_wf.2.2 hr
    exact absurd h2 (h j h1)

theorem not_isdir_of_isreg (m : Nat) (h : S_ISREG m = true) : S_ISDIR m = false := by
  simp only [S_ISREG, S_ISDIR, beq_iff_eq] at h ⊢
  rw [h]
  decide

/-- C6, as stated, fails: `/etc/empty` is a regular file of size 0, and in
the test world where it cannot be opened `file_op` returns -1, not 0. -/
theorem file_op_unreadable_empty_file :
    (tsys cfg2).stat (entry_path "/etc".toList "empty".toList) world0 =
      (some (file_stat 0 8), world0) ∧
    S_ISREG (file_stat 0 8).st_mode = true ∧ (file_stat 0 8).st_size = 0 ∧
    (file_op (tsys cfg2) 1 "/etc".toList "empty".toList world0).code = some (-1) := by
  decide

/-- C6, amended: on a directory entry that is a regular file, `file_op`
returns -1 when the file cannot be opened, and 0 when the file was opened and
is empty, or was opened and mapped, its content does not hold `password` and
its size is not one that drives the `int` counter of the search to `INT_MAX`
(a size congruent to `2^31 + 7` modulo `2^32`). In each of these cases it
creates no destination artifact: the world it leaves is the one left by
`stat`, `open` (read-only) and `close` of the source, with `mmap` and `munmap`
of the source in between when the file is not empty, so no `mkdir`, no
creation, truncation or write of a destination file and no `chmod`, `chown` or
`utime` was called. -/
theorem file_op_no_marker {σ : Type} (sys : Sys σ) (fuel : Nat) (dir name : List Char)
    (s s1 : σ) (st : Stat)
    (hname : name ≠ ".".toList ∧ name ≠ "..".toList)
    (hstat : sys.stat (entry_path dir name) s = (some st, s1))
    (hreg : S_ISREG st.st_mode = true) :
    ((sys.open_ (entry_path dir name) O_RDONLY 0 s1).1 < 0 →
      file_op sys (fuel + 1) dir name s =
        Outcome.ret (-1, (sys.open_ (entry_path dir name) O_RDONLY 0 s1).2)) ∧
    (0 ≤ (sys.open_ (entry_path dir name) O_RDONLY 0 s1).1 → st.st_size ≤ 0 →
      file_op sys (fuel + 1) dir name s =
        Outcome.ret (0, sys.close (sys.open_ (entry_path dir name) O_RDONLY 0 s1).1
          (sys.open_ (entry_path dir name) O_RDONLY 0 s1).2)) ∧
    (0 ≤ (sys.open_ (entry_path dir name) O_RDONLY 0 s1).1 → 0 < st.st_size →
      to_size_t st.st_size % 4294967296 ≠ 2147483655 → ∀ map s2,
      sys.mmap st.st_size PROT_READ MAP_SHARED (sys.open_ (entry_path dir name) O_RDONLY 0 s1).1
        (sys.open_ (entry_path dir name) O_RDONLY 0 s1).2 = (some map, s2) →
      (∀ i, i + password.length ≤ to_size_t st.st_size →
        ¬ OccursAt (sys.load map s2) password i) →
      file_op sys (fuel + 1) dir name s =
        Outcome.ret (0, sys.close (sys.open_ (entry_path dir name) O_RDONLY 0 s1).1
          (sys.munmap map st.st_size s2))) := by
  have hn : ¬ (name = ".".toList ∨ name = "..".toList) := fun h => h.elim hname.1 hname.2
  have hdir : S_ISDIR st.st_mode = false := not_isdir_of_isreg _ hreg
  have hstart : file_op sys (fuel + 1) dir name s =
      if (sys.open_ (entry_path dir name) O_RDONLY 0 s1).1 < 0 then
        Outcome.ret (-1, (sys.open_ (entry_path dir name) O_RDONLY 0 s1).2)
      else if st.st_size ≤ 0 then
        out2 sys (sys.open_ (entry_path dir name) O_RDONLY 0 s1).1 0
          (sys.open_ (entry_path dir name) O_RDONLY 0 s1).2
      else
        match sys.mmap st.st_size PROT_READ MAP_SHARED
            (sys.open_ (entry_path dir name) O_RDONLY 0 s1).1
            (sys.open_ (entry_path dir name) O_RDONLY 0 s1).2 with
        | (none, s2) => out2 sys (sys.open_ (entry_path dir name) O_RDONLY 0 s1).1 (-1) s2
        | (some map, s2) =>
          (strnstr (sys.load map s2) (to_size_t st.st_size) password).bind fun found =>
            if found.isSome then
              copy_matching sys fuel dir (entry_path dir name) st
                (sys.open_ (entry_path dir name) O_RDONLY 0 s1).1 map s2
            else out3 sys map st (sys.open_ (entry_path dir name) O_RDONLY 0 s1).1 0 s2 := by
    rw [file_op, if_neg hn]
    simp only [hstat]
    rw [hdir, hreg]
    simp only [Bool.false_eq_true, if_false, not_true_eq_false]
  rw [hstart]
  refine ⟨fun hfd => ?_, fun hfd hsize => ?_, fun hfd hsize hover map s2 hmap hnone => ?_⟩
  · rw [if_pos hfd]
  · rw [if_neg (by omega), if_pos hsize]
    rfl
  · rw [if_neg (by omega), if_neg (by omega)]
    simp only [hmap]
    rw [strnstr_password_none _ _ hover hnone]
    rfl

set_option maxRecDepth 100000 in
theorem file_op_no_marker_witness :
    file_op (tsys cfg2) 1 "/etc".toList "empty".toList world0 =
      Outcome.ret (-1, { world0 with errno := 13 }) ∧
    file_op (tsys cfg0) 1 "/etc".toList "empty".toList world0 =
      Outcome.ret (0, { world0 with fds := ["/etc/empty".toList] }) ∧
    file_op (tsys cfg0) 1 "/etc/app".toList "readme.txt".toList world0 =
      Outcome.ret (0, { world0 with fds := ["/etc/app/readme.txt".toList],
                                    maps := ["/etc/app/readme.txt".toList] }) :=
  ⟨(file_op_no_marker (tsys cfg2) 0 "/etc".toList "empty".toList world0 world0 (file_stat 0 8)
      (by decide) (by decide) (by decide)).1 (by decide),
   (file_op_no_marker (tsys cfg0) 0 "/etc".toList "empty".toList world0 world0 (file_stat 0 8)
      (by decide) (by decide) (by decide)).2.1 (by decide) (by decide),
   (file_op_no_marker (tsys cfg0) 0 "/etc/app".toList "readme.txt".toList world0 world0
      (file_stat 12 8) (by decide) (by decide) (by decide)).2.2 (by decide) (by decide)
      (by decide) 0
      { world0 with fds := ["/etc/app/readme.txt".toList],
                    maps := ["/etc/app/readme.txt".toList] }
      (by decide)
      (fun i hi hocc => by
        have h12 : to_size_t (file_stat 12 8).st_size = 12 := by decide
        have h8 : password.length = 8 := by decide
        rw [h12, h8] at hi
        have hp := hocc 0 (by decide)
        have hi4 : i ≤ 4 := by omega
        interval_cases i <;> exact absurd hp (by decide))⟩

/-! ## The walk -/

theorem read_dir_loop_discard {σ : Type} (sys : Sys σ) (op : read_dir_op σ) (path : List Char)
    (dir : Nat) (fuel : Nat) :
    ∀ s, read_dir_loop sys (fun p n t => (op p n t).discard) path dir fuel s =
      read_dir_loop sys op path dir fuel s := by
  induction fuel with
  | zero => exact fun s => rfl
  | succ fuel ih =>
    intro s
    simp only [read_dir_loop]
    cases hr : sys.readdir dir s with
    | mk name s1 =>
      cases name with
      | none => rfl
      | some name =>
        simp only []
        have hd : ∀ e : Int × σ, (Outcome.ret e).discard = Outcome.ret (0, e.2) := fun _ => rfl
        cases hop : op path name s1 with
        | ret e =>
          simp only [hd]
          exact ih _
        | fault => rfl
        | timeout => rfl

/-- C5, as stated, fails: in the test world where `utime` fails on `/tmp/etc`
the root `/etc` is opened and read without error, the hook
`file_op_mkdir_cb` fails hard on `/tmp/etc` (it returns -1 in every world, and
its failed `utime` is the last call of the walk that changes the file system),
and the walk returns 0; more generally it returns whatever value the variable
`err` of `read_dir` held, never -1 on account of the hook. -/
theorem walk_swallows_hook_failure :
    (main (tsys cfg1) 10 world0).code = some 0 ∧
    ((main (tsys cfg1) 10 world0).world.map (fun w => w.calls.getLast?)) =
      some (some (Call.utime "/tmp/etc".toList 100 200 (-1))) ∧
    (∀ w, (file_op_mkdir_cb (tsys cfg1) "/tmp/etc".toList w).code = some (-1)) ∧
    (∀ g, (main (tsys { cfg1 with garbage := g }) 10 world0).code = some g) := by
  refine ⟨by decide, by decide, fun w => ?_, fun g => ?_⟩
  · rfl
  · rfl

theorem read_dir_loop_perturb {σ : Type} (sys : Sys σ) (op : read_dir_op σ)
    (hset : ∀ a b s, sys.set_errno a (sys.set_errno b s) = sys.set_errno a s)
    (g : Int × σ → Int) (h : Int × σ → Nat) (path : List Char) (dir : Nat) (fuel : Nat) :
    ∀ s, read_dir_loop sys (perturb sys g h op) path dir fuel s =
      read_dir_loop sys op path dir fuel s := by
  induction fuel with
  | zero => exact fun s => rfl
  | succ fuel ih =>
    intro s
    simp only [read_dir_loop]
    cases hr : sys.readdir dir s with
    | mk name s1 =>
      cases name with
      | none => rfl
      | some name =>
        have hp : perturb sys g h op path name s1 =
            match op path name s1 with
            | .ret e => .ret (g e, sys.set_errno (h e) e.2)
            | .fault => .fault
            | .timeout => .timeout := rfl
        simp only [hp]
        cases hop : op path name s1 with
        | ret e =>
          simp only [hset]
          exact ih _
        | fault => rfl
        | timeout => rfl

/-- When the enumeration ends, the world it leaves is the one left by a
`readdir` that returned `NULL` and that was called either first of all or
with `errno` clear. -/
theorem read_dir_loop_last {σ : Type} (sys : Sys σ) (op : read_dir_op σ)
    (herr : ∀ e s, sys.errno (sys.set_errno e s) = e) (path : List Char) (dir : Nat)
    (fuel : Nat) :
    ∀ s1 s2, read_dir_loop sys op path dir fuel s1 = Outcome.ret s2 →
      ∃ t, sys.readdir dir t = (none, s2) ∧ (t = s1 ∨ sys.errno t = 0) := by
  induction fuel with
  | zero => intro s1 s2 h; cases h
  | succ fuel ih =>
    intro s1 s2 h
    simp only [read_dir_loop] at h
    cases hr : sys.readdir dir s1 with
    | mk name s =>
      rw [hr] at h
      cases name with
      | none =>
        simp only [Outcome.ret.injEq] at h
        exact ⟨s1, by rw [hr, h], Or.inl rfl⟩
      | some name =>
        simp only [] at h
        cases hop : op path name s with
        | ret e =>
          rw [hop] at h
          obtain ⟨t, ht, htc⟩ := ih _ _ h
          refine ⟨t, ht, Or.inr ?_⟩
          rcases htc with rfl | h0
          · exact herr 0 _
          · exact h0
        | fault => rw [hop] at h; cases h
        | timeout => rw [hop] at h; cases h

/-- C5, amended: where `errno` is a variable of the world, the walk returns
-1 when the root directory cannot be opened, and when the `readdir` that ends
the enumeration of the root leaves `errno` set; that `readdir` runs with
`errno` clear once an entry was visited. Every error inside the visitor is
swallowed, a hard error inside `file_op_mkdir_cb` included: whatever value
`file_op` returns and whatever `errno` it leaves, the walk returns the same
value and leaves the same world. -/
theorem walk_failure_sources {σ : Type} (sys : Sys σ) (fuel : Nat) (root : List Char) (s : σ)
    (herr : ∀ e t, sys.errno (sys.set_errno e t) = e)
    (hset : ∀ a b t, sys.set_errno a (sys.set_errno b t) = sys.set_errno a t) :
    (∀ s1, sys.opendir root s = (none, s1) → walk sys fuel root s = Outcome.ret (-1, s1)) ∧
    (∀ d s1 s2, sys.opendir root s = (some d, s1) →
      read_dir_loop sys (file_op sys fuel) root d fuel s1 = Outcome.ret s2 →
      (∃ t, sys.readdir d t = (none, s2) ∧ (t = s1 ∨ sys.errno t = 0)) ∧
      (sys.errno s2 ≠ 0 → walk sys fuel root s = Outcome.ret (-1, sys.closedir d s2))) ∧
    (∀ (g : Int × σ → Int) (h : Int × σ → Nat),
      walk sys fuel root s = read_dir sys (perturb sys g h (file_op sys fuel)) fuel root s) ∧
    walk sys fuel root s =
      read_dir sys (fun p n t => (file_op sys fuel p n t).discard) fuel root s := by
  refine ⟨fun s1 h => ?_, fun d s1 s2 h1 h2 => ⟨?_, fun h3 => ?_⟩, fun g h => ?_, ?_⟩
  · simp only [walk, read_dir, h]
  · exact read_dir_loop_last sys _ herr root d fuel s1 s2 h2
  · simp only [walk, read_dir, h1, h2, h3, ne_eq, not_false_eq_true, if_true]
  · simp only [walk, read_dir, read_dir_loop_perturb sys _ hset]
  · simp only [walk, read_dir, read_dir_loop_discard]

set_option maxRecDepth 100000 in
theorem walk_failure_sources_witness :
    (walk (tsys cfg1) 10 "/missing".toList world0).code = some (-1) ∧
    (walk (tsys cfg1) 10 "/etc".toList world0).code = some 0 ∧
    (∀ (g : Int × World → Int) (h : Int × World → Nat),
      walk (tsys cfg1) 10 "/etc".toList world0 =
        read_dir (tsys cfg1) (perturb (tsys cfg1) g h (file_op (tsys cfg1) 10)) 10
          "/etc".toList world0) :=
  ⟨by
    rw [(walk_failure_sources (tsys cfg1) 10 "/missing".toList world0 (fun _ _ => rfl)
      (fun _ _ _ => rfl)).1 { world0 with errno := 2 } (by decide)]
    rfl,
   by decide,
   (walk_failure_sources (tsys cfg1) 10 "/etc".toList world0 (fun _ _ => rfl)
      (fun _ _ _ => rfl)).2.2.1⟩

end RecursiveCopy
